import Mathlib

/-!
# ft_stl_impl: red-black tree node and header, pair, reverse iterator

A shallow embedding of `include/tree/rb_tree_node_base.h`,
`include/tree/rb_tree_header.h`, `include/tree/rb_tree_node.h`,
`include/utility/pair.h` and `include/iterator/reverse_iterator.h`.

Objects live in a memory indexed by addresses (`Nat`); a `base_ptr` is
`none` for `nullptr` and `some a` for the address `a`.  A header object at
address `a` has its `m_header` node at `a` (it is the first member) and its
`m_nodeCount` in the `counts` component at `a`.  Dereferencing a null pointer
is undefined behaviour and is modelled by the result `none`.

The tree class itself (insertion, removal, iteration) is not in the sources;
its model follows the specification and is marked so.
-/

set_option autoImplicit false

namespace ft

/-! ## rb_tree_node_base.h -/

/-- The enum class `rb_tree_color`. -/
inductive rb_tree_color where
  | red
  | black
deriving DecidableEq, Repr

/-- The enumerator values: `red = false`, `black = true`. -/
def rb_tree_color.toBool : rb_tree_color → Bool
  | .red => false
  | .black => true

/-- The color whose enumerator value is the given one. -/
def rb_tree_color.ofBool : Bool → rb_tree_color
  | false => .red
  | true => .black

/-- The type `rb_tree_node_base*`: `none` is `nullptr`. -/
abbrev base_ptr := Option Nat

/-- The struct `rb_tree_node_base`. -/
structure rb_tree_node_base where
  m_color : rb_tree_color
  m_parent : base_ptr
  m_left : base_ptr
  m_right : base_ptr
deriving DecidableEq, Repr

/-- The value-initialised aggregate `rb_tree_node_base{ }`: every member is
zero-initialised, so the color is the enumerator of value `false` and the
three links are null. -/
def rb_tree_node_base.value_init : rb_tree_node_base :=
  { m_color := rb_tree_color.ofBool false, m_parent := none, m_left := none, m_right := none }

/-- The memory: the `rb_tree_node_base` sub-object at each address, and the
`m_nodeCount` member of the header object at each address. -/
structure Mem where
  nodes : Nat → rb_tree_node_base
  counts : Nat → Nat

/-- Store a whole node at address `a`. -/
def Mem.set_node (m : Mem) (a : Nat) (n : rb_tree_node_base) : Mem :=
  { m with nodes := fun b => if b = a then n else m.nodes b }

/-- The assignment `a->m_color = c`. -/
def Mem.set_color (m : Mem) (a : Nat) (c : rb_tree_color) : Mem :=
  m.set_node a { m.nodes a with m_color := c }

/-- The assignment `a->m_parent = p`. -/
def Mem.set_parent (m : Mem) (a : Nat) (p : base_ptr) : Mem :=
  m.set_node a { m.nodes a with m_parent := p }

/-- The assignment `a->m_left = p`. -/
def Mem.set_left (m : Mem) (a : Nat) (p : base_ptr) : Mem :=
  m.set_node a { m.nodes a with m_left := p }

/-- The assignment `a->m_right = p`. -/
def Mem.set_right (m : Mem) (a : Nat) (p : base_ptr) : Mem :=
  m.set_node a { m.nodes a with m_right := p }

/-- The assignment `m_nodeCount = n` in the header at `a`. -/
def Mem.set_count (m : Mem) (a : Nat) (n : Nat) : Mem :=
  { m with counts := fun b => if b = a then n else m.counts b }

/-! ## rb_tree_header.h -/

namespace rb_tree_header

/-- The member `__reset()` of the header at address `this`. -/
def __reset (m : Mem) (this : Nat) : Mem :=
  let m1 := m.set_parent this none
  let m2 := m1.set_left this (some this)
  let m3 := m2.set_right this (some this)
  m3.set_count this 0

/-- The default constructor `rb_tree_header()` run on the storage at `this`. -/
def ctor (m : Mem) (this : Nat) : Mem :=
  let m1 := m.set_node this rb_tree_node_base.value_init
  let m2 := m1.set_count this 0
  let m3 := m2.set_color this rb_tree_color.red
  __reset m3 this

/-- The member `__move_data(__from)` of the header at `this`; `frm` is the
address of `__from`.  The statement `m_header.m_parent->m_parent = &m_header`
dereferences `m_header.m_parent`: when that is null the result is `none`. -/
def __move_data (m : Mem) (this frm : Nat) : Option Mem :=
  let m1 := m.set_color this (m.nodes frm).m_color
  let m2 := m1.set_parent this (m1.nodes frm).m_parent
  let m3 := m2.set_left this (m2.nodes frm).m_left
  let m4 := m3.set_right this (m3.nodes frm).m_right
  match (m4.nodes this).m_parent with
  | none => none
  | some r =>
    let m5 := m4.set_parent r (some this)
    let m6 := m5.set_count this (m5.counts frm)
    some (__reset m6 frm)

/-- The move constructor `rb_tree_header(rb_tree_header&& __x)` run on the
storage at `this`; `x` is the address of `__x`.  The members are not
initialised before the body runs, so the storage holds whatever `m` has. -/
def move_ctor (m : Mem) (this x : Nat) : Option Mem :=
  if (m.nodes x).m_parent ≠ none then
    __move_data m this x
  else
    some (__reset (m.set_color this rb_tree_color.red) this)

/-- The empty state of the header at `a`: null parent link, left and right
links at the header's own node, node count zero. -/
def EmptyState (m : Mem) (a : Nat) : Prop :=
  (m.nodes a).m_parent = none ∧ (m.nodes a).m_left = some a ∧
    (m.nodes a).m_right = some a ∧ m.counts a = 0

instance (m : Mem) (a : Nat) : Decidable (EmptyState m a) := by
  unfold EmptyState; infer_instance

end rb_tree_header

/-- The life of header objects: the operations the header offers. -/
inductive header_op where
  | construct (a : Nat)
  | move_construct (a x : Nat)
  | move_data (a x : Nat)
  | reset (a : Nat)
deriving DecidableEq, Repr

/-- One operation on a memory together with the addresses of the header
objects constructed so far.  A member function runs on constructed headers
only; undefined behaviour and calls on unconstructed headers give `none`. -/
def step (s : Mem × List Nat) : header_op → Option (Mem × List Nat)
  | .construct a => some (rb_tree_header.ctor s.1 a, a :: s.2)
  | .move_construct a x =>
    if x ∈ s.2 then (rb_tree_header.move_ctor s.1 a x).map (fun m => (m, a :: s.2)) else none
  | .move_data a x =>
    if a ∈ s.2 ∧ x ∈ s.2 then (rb_tree_header.__move_data s.1 a x).map (fun m => (m, s.2))
    else none
  | .reset a =>
    if a ∈ s.2 then some (rb_tree_header.__reset s.1 a, s.2) else none

/-- A sequence of operations, first to last. -/
def run : List header_op → Mem × List Nat → Option (Mem × List Nat)
  | [], s => some s
  | op :: ops, s => (step s op).bind (run ops)

/-- Every constructed header is red. -/
def AllRed (s : Mem × List Nat) : Prop :=
  ∀ a ∈ s.2, (s.1.nodes a).m_color = rb_tree_color.red

instance (s : Mem × List Nat) : Decidable (AllRed s) := by
  unfold AllRed; infer_instance

/-! ## minimum and maximum (rb_tree_node_base.h) -/

namespace rb_tree_node_base

/-- The loop `while ( __x->m_left != nullptr ) __x = __x->m_left;` and the
`return __x;` after it, with `fuel` bounding the number of times the
condition is evaluated: `none` when the fuel runs out. -/
def minimum_loop (m : Mem) : Nat → Nat → Option Nat
  | 0, _ => none
  | fuel + 1, x =>
    match (m.nodes x).m_left with
    | none => some x
    | some l => minimum_loop m fuel l

/-- The static member `minimum(base_ptr __x)`.  The outer `Option` is `none`
when the loop has not finished within `fuel`. -/
def minimum (m : Mem) (fuel : Nat) (x : base_ptr) : Option base_ptr :=
  match x with
  | none => some none
  | some a => (minimum_loop m fuel a).map some

/-- The loop `while ( __x->m_right != nullptr ) __x = __x->m_right;` and the
`return __x;` after it. -/
def maximum_loop (m : Mem) : Nat → Nat → Option Nat
  | 0, _ => none
  | fuel + 1, x =>
    match (m.nodes x).m_right with
    | none => some x
    | some r => maximum_loop m fuel r

/-- The static member `maximum(base_ptr __x)`. -/
def maximum (m : Mem) (fuel : Nat) (x : base_ptr) : Option base_ptr :=
  match x with
  | none => some none
  | some a => (maximum_loop m fuel a).map some

/-- The loop of the overload `minimum(const_base_ptr __x)`. -/
def minimum_const_loop (m : Mem) : Nat → Nat → Option Nat
  | 0, _ => none
  | fuel + 1, x =>
    match (m.nodes x).m_left with
    | none => some x
    | some l => minimum_const_loop m fuel l

/-- The static member `minimum(const_base_ptr __x)`. -/
def minimum_const (m : Mem) (fuel : Nat) (x : base_ptr) : Option base_ptr :=
  match x with
  | none => some none
  | some a => (minimum_const_loop m fuel a).map some

/-- The loop of the overload `maximum(const_base_ptr __x)`. -/
def maximum_const_loop (m : Mem) : Nat → Nat → Option Nat
  | 0, _ => none
  | fuel + 1, x =>
    match (m.nodes x).m_right with
    | none => some x
    | some r => maximum_const_loop m fuel r

/-- The static member `maximum(const_base_ptr __x)`. -/
def maximum_const (m : Mem) (fuel : Nat) (x : base_ptr) : Option base_ptr :=
  match x with
  | none => some none
  | some a => (maximum_const_loop m fuel a).map some

end rb_tree_node_base

/-- The node `b` is reached from `a` by following left links only. -/
inductive LeftReach (m : Mem) : Nat → Nat → Prop where
  | refl (a : Nat) : LeftReach m a a
  | step {a b c : Nat} : (m.nodes a).m_left = some b → LeftReach m b c → LeftReach m a c

/-- The node `b` is reached from `a` by following right links only. -/
inductive RightReach (m : Mem) : Nat → Nat → Prop where
  | refl (a : Nat) : RightReach m a a
  | step {a b c : Nat} : (m.nodes a).m_right = some b → RightReach m b c → RightReach m a c

/-- The shape of a finite binary tree of node addresses. -/
inductive Shape where
  | nil
  | node (l : Shape) (a : Nat) (r : Shape)
deriving DecidableEq, Repr

/-- The addresses of the nodes of a tree, in order. -/
def Shape.addrs : Shape → List Nat
  | .nil => []
  | .node l a r => l.addrs ++ a :: r.addrs

/-- The number of nodes on the longest path from the root down. -/
def Shape.height : Shape → Nat
  | .nil => 0
  | .node l _ r => max l.height r.height + 1

/-- The pointer `p` roots the finite tree `t` in the memory `m`: a null
pointer roots the empty tree, and a node roots the tree made of the trees
its left and right links root. -/
def IsTree (m : Mem) : base_ptr → Shape → Prop
  | none, .nil => True
  | some a, .node l b r =>
    a = b ∧ IsTree m (m.nodes b).m_left l ∧ IsTree m (m.nodes b).m_right r
  | none, .node _ _ _ => False
  | some _, .nil => False

/-- The binary-search-tree ordering of the keys `key a` held by the nodes:
no key in a left subtree is greater than the key above it and no key in a
right subtree is less. -/
def IsBST {K : Type} [LinearOrder K] (key : Nat → K) : Shape → Prop
  | .nil => True
  | .node l a r =>
    (∀ b ∈ l.addrs, key b ≤ key a) ∧ (∀ b ∈ r.addrs, key a ≤ key b) ∧
      IsBST key l ∧ IsBST key r

/-- Whether `p` roots `t` in `m` is decided by walking the shape. -/
def IsTree.decide (m : Mem) : (p : base_ptr) → (t : Shape) → Decidable (IsTree m p t)
  | none, .nil => isTrue trivial
  | some a, .node l b r =>
    match decEq a b, IsTree.decide m (m.nodes b).m_left l,
      IsTree.decide m (m.nodes b).m_right r with
    | isTrue h1, isTrue h2, isTrue h3 => isTrue ⟨h1, h2, h3⟩
    | isFalse h1, _, _ => isFalse (fun h => h1 h.1)
    | _, isFalse h2, _ => isFalse (fun h => h2 h.2.1)
    | _, _, isFalse h3 => isFalse (fun h => h3 h.2.2)
  | none, .node _ _ _ => isFalse (fun h => h)
  | some _, .nil => isFalse (fun h => h)

instance (m : Mem) (p : base_ptr) (t : Shape) : Decidable (IsTree m p t) := IsTree.decide m p t

/-- The ordering of a shape is decided node by node. -/
def IsBST.decide {K : Type} [LinearOrder K] (key : Nat → K) : (t : Shape) → Decidable (IsBST key t)
  | .nil => isTrue trivial
  | .node l a r =>
    match (inferInstance : Decidable (∀ b ∈ l.addrs, key b ≤ key a)),
      (inferInstance : Decidable (∀ b ∈ r.addrs, key a ≤ key b)),
      IsBST.decide key l, IsBST.decide key r with
    | isTrue h1, isTrue h2, isTrue h3, isTrue h4 => isTrue ⟨h1, h2, h3, h4⟩
    | isFalse h1, _, _, _ => isFalse (fun h => h1 h.1)
    | _, isFalse h2, _, _ => isFalse (fun h => h2 h.2.1)
    | _, _, isFalse h3, _ => isFalse (fun h => h3 h.2.2.1)
    | _, _, _, isFalse h4 => isFalse (fun h => h4 h.2.2.2)

instance {K : Type} [LinearOrder K] (key : Nat → K) (t : Shape) : Decidable (IsBST key t) :=
  IsBST.decide key t

/-! ## rb_tree_node.h -/

/-- The struct template `rb_tree_node<ValueType>`. -/
structure rb_tree_node (ValueType : Type) extends rb_tree_node_base where
  m_valueField : ValueType

/-- The place of a data member inside an `rb_tree_node` object: what a
pointer obtained from `std::addressof` on a member designates. -/
inductive node_member where
  | m_valueField
deriving DecidableEq, Repr

namespace rb_tree_node

variable {ValueType : Type}

/-- The default constructor: `rb_tree_node_base{ }, m_valueField{ }`. -/
def ctor [Inhabited ValueType] : rb_tree_node ValueType :=
  { torb_tree_node_base := rb_tree_node_base.value_init, m_valueField := default }

/-- The constructor `rb_tree_node(const ValueType& value)`:
`rb_tree_node_base{ }, m_valueField{ value }`. -/
def ctor_value (value : ValueType) : rb_tree_node ValueType :=
  { torb_tree_node_base := rb_tree_node_base.value_init, m_valueField := value }

/-- Reading the object a member pointer designates. -/
def load (n : rb_tree_node ValueType) : node_member → ValueType
  | .m_valueField => n.m_valueField

/-- The member `__valptr()`: `std::addressof(m_valueField)`. -/
def __valptr (_n : rb_tree_node ValueType) : node_member := node_member.m_valueField

/-- The member `__valptr() const`. -/
def __valptr_const (_n : rb_tree_node ValueType) : node_member := node_member.m_valueField

/-- The member `__value()`: `m_valueField`. -/
def __value (n : rb_tree_node ValueType) : ValueType := n.m_valueField

/-- The member `__value() const`. -/
def __value_const (n : rb_tree_node ValueType) : ValueType := n.m_valueField

end rb_tree_node

/-! ## utility/pair.h -/

/-- The struct template `pair<T1, T2>`. -/
structure pair (T1 T2 : Type) where
  first : T1
  second : T2

namespace pair

variable {T1 T2 : Type}

/-- The free `operator==` on pairs: `lhs.first == rhs.first && lhs.second == rhs.second`. -/
def operator_eq [BEq T1] [BEq T2] (lhs rhs : pair T1 T2) : Bool :=
  lhs.first == rhs.first && lhs.second == rhs.second

/-- The free `operator!=` on pairs: `!(lhs == rhs)`. -/
def operator_ne [BEq T1] [BEq T2] (lhs rhs : pair T1 T2) : Bool :=
  !(operator_eq lhs rhs)

/-- The free `operator<` on pairs, from the `operator<` and `operator==` of
the first component type and the `operator<` of the second. -/
def operator_lt [LT T1] [∀ a b : T1, Decidable (a < b)] [BEq T1]
    [LT T2] [∀ a b : T2, Decidable (a < b)] (lhs rhs : pair T1 T2) : Bool :=
  if lhs.first < rhs.first then
    true
  else if rhs.first == lhs.first then
    decide (lhs.second < rhs.second)
  else
    false

/-- The free `operator>` on pairs: `rhs < lhs`. -/
def operator_gt [LT T1] [∀ a b : T1, Decidable (a < b)] [BEq T1]
    [LT T2] [∀ a b : T2, Decidable (a < b)] (lhs rhs : pair T1 T2) : Bool :=
  operator_lt rhs lhs

/-- The free `operator<=` on pairs: `!(rhs < lhs)`. -/
def operator_le [LT T1] [∀ a b : T1, Decidable (a < b)] [BEq T1]
    [LT T2] [∀ a b : T2, Decidable (a < b)] (lhs rhs : pair T1 T2) : Bool :=
  !(operator_lt rhs lhs)

/-- The free `operator>=` on pairs: `!(lhs < rhs)`. -/
def operator_ge [LT T1] [∀ a b : T1, Decidable (a < b)] [BEq T1]
    [LT T2] [∀ a b : T2, Decidable (a < b)] (lhs rhs : pair T1 T2) : Bool :=
  !(operator_lt lhs rhs)

end pair

/-! ## iterator/reverse_iterator.h -/

/-- The operations of the base iterator type `_Iter` that `reverse_iterator`
calls: `++i`, `--i`, `i + n`, `i - n`, `i += n`, `i -= n` (each giving the
new position) and `*i`, which is `none` where `i` is not dereferenceable.
The difference type is `Int`, the element type `E`. -/
structure iterator_ops (I E : Type) where
  inc : I → I
  dec : I → I
  add : I → Int → I
  sub : I → Int → I
  add_assign : I → Int → I
  sub_assign : I → Int → I
  deref : I → Option E

/-- The requirement on a bidirectional iterator type that `++` and `--` undo
each other. -/
def iterator_ops.Bidirectional {I E : Type} (ops : iterator_ops I E) : Prop :=
  (∀ i, ops.inc (ops.dec i) = i) ∧ (∀ i, ops.dec (ops.inc i) = i)

/-- The requirements on a random-access iterator type that `i += n` and
`i -= n` move `i` to `i + n` and `i - n`, and that `(i - n) + n` is `i`. -/
def iterator_ops.RandomAccess {I E : Type} (ops : iterator_ops I E) : Prop :=
  (∀ i n, ops.add_assign i n = ops.add i n) ∧ (∀ i n, ops.sub_assign i n = ops.sub i n) ∧
    (∀ i n, ops.add (ops.sub i n) n = i)

/-- The iterator type `T*` over an array holding the elements `a`: a pointer
is the index it points at (`a.length` is one past the end), and it is
dereferenceable at the indices of `a`. -/
def pointer_ops {E : Type} (a : List E) : iterator_ops Int E where
  inc := fun i => i + 1
  dec := fun i => i - 1
  add := fun i n => i + n
  sub := fun i n => i - n
  add_assign := fun i n => i + n
  sub_assign := fun i n => i - n
  deref := fun i => if 0 ≤ i then a.get? i.toNat else none

/-- The class template `reverse_iterator<_Iter>`. -/
structure reverse_iterator (I : Type) where
  m_current : I
deriving DecidableEq, Repr

namespace reverse_iterator

variable {I E : Type}

/-- The constructor `reverse_iterator(iterator_type __x)`. -/
def ctor (x : I) : reverse_iterator I := { m_current := x }

/-- The member `base()`. -/
def base (r : reverse_iterator I) : I := r.m_current

/-- The member `operator*()`: a copy of `m_current` is decremented and
dereferenced. -/
def operator_deref (ops : iterator_ops I E) (r : reverse_iterator I) : Option E :=
  let tmp := r.m_current
  let tmp1 := ops.dec tmp
  ops.deref tmp1

/-- The pre-increment `operator++()`: the new value of `*this`, which is
also what the returned reference designates. -/
def operator_inc (ops : iterator_ops I E) (r : reverse_iterator I) : reverse_iterator I :=
  { m_current := ops.dec r.m_current }

/-- The post-increment `operator++(int)`: the returned copy and the new
value of `*this`. -/
def operator_inc_post (ops : iterator_ops I E) (r : reverse_iterator I) :
    reverse_iterator I × reverse_iterator I :=
  let tmp := r
  (tmp, { m_current := ops.dec r.m_current })

/-- The pre-decrement `operator--()`: the new value of `*this`. -/
def operator_dec (ops : iterator_ops I E) (r : reverse_iterator I) : reverse_iterator I :=
  { m_current := ops.inc r.m_current }

/-- The post-decrement `operator--(int)`: the returned copy and the new
value of `*this`. -/
def operator_dec_post (ops : iterator_ops I E) (r : reverse_iterator I) :
    reverse_iterator I × reverse_iterator I :=
  let tmp := r
  (tmp, { m_current := ops.inc r.m_current })

/-- The member `operator+(difference_type __n)`. -/
def operator_plus (ops : iterator_ops I E) (r : reverse_iterator I) (n : Int) :
    reverse_iterator I :=
  ctor (ops.sub r.m_current n)

/-- The member `operator-(difference_type __n)`. -/
def operator_minus (ops : iterator_ops I E) (r : reverse_iterator I) (n : Int) :
    reverse_iterator I :=
  ctor (ops.add r.m_current n)

/-- The member `operator+=(difference_type __n)`: the new value of `*this`. -/
def operator_plus_assign (ops : iterator_ops I E) (r : reverse_iterator I) (n : Int) :
    reverse_iterator I :=
  { m_current := ops.sub_assign r.m_current n }

/-- The member `operator-=(difference_type __n)`: the new value of `*this`. -/
def operator_minus_assign (ops : iterator_ops I E) (r : reverse_iterator I) (n : Int) :
    reverse_iterator I :=
  { m_current := ops.add_assign r.m_current n }

/-- The free `operator==` on reverse iterators: `__x.base() == __y.base()`. -/
def operator_eq [DecidableEq I] (x y : reverse_iterator I) : Bool :=
  decide (x.base = y.base)

/-- The free `operator+(const reverse_iterator&, difference_type)`. -/
def free_operator_plus (ops : iterator_ops I E) (x : reverse_iterator I) (n : Int) :
    reverse_iterator I :=
  ctor (ops.sub x.base n)

/-- The free `operator-(const reverse_iterator&, difference_type)`. -/
def free_operator_minus (ops : iterator_ops I E) (x : reverse_iterator I) (n : Int) :
    reverse_iterator I :=
  ctor (ops.add x.base n)

end reverse_iterator

/-- The type `const _Iter`: a value of the iterator type that no operation
modifies, so it has no `++`, `--`, `+=` or `-=`. -/
structure const_qualified (I : Type) where
  value : I
deriving DecidableEq, Repr

/-- The first function template `make_reverse_iterator(_Iter __x)`
(reverse_iterator.h, lines 160-165), when it is the overload that runs: it
returns `reverse_iterator<_Iter>(__x)`. -/
def make_reverse_iterator {I : Type} (x : I) : reverse_iterator I :=
  reverse_iterator.ctor x

/-- The second function template `make_reverse_iterator(const _Iter __x)`
(reverse_iterator.h, lines 170-175), when it is the overload that runs: it
returns `reverse_iterator<const _Iter>(__x)`. -/
def make_reverse_iterator_const {I : Type} (x : I) : reverse_iterator (const_qualified I) :=
  reverse_iterator.ctor { value := x }

/-- The function templates declared under the name `make_reverse_iterator`:
the one taking `_Iter __x` and the one taking `const _Iter __x`. -/
inductive make_reverse_iterator_overload where
  | by_value
  | by_const_value
deriving DecidableEq, Repr

/-- The best candidates of overload resolution for a call
`make_reverse_iterator(x)`.  The parameter of both templates is the iterator
by value, and a top-level `const` is not part of a parameter's type: for
every argument both deduce `_Iter` as the argument's type and take it with
the same conversion, and neither template is more specialised than the
other.  Both are best, whatever the argument. -/
def make_reverse_iterator_candidates : List make_reverse_iterator_overload :=
  [.by_value, .by_const_value]

/-- The call expression `make_reverse_iterator(x)`: the overload it runs,
which is the one best candidate; with several the call is ambiguous and the
program ill-formed, which is `none`. -/
def make_reverse_iterator_call : Option make_reverse_iterator_overload :=
  match make_reverse_iterator_candidates with
  | [o] => some o
  | _ => none

/-! ## The tree engine of the specification

The sources hold the node, the header and the comparison holder only; the
tree class with its insertion, removal and iteration is described by the
specification (sections 3, 4.3, 4.4, 6).  The definitions of this section are
modelled from it, over a linearly ordered key type whose `<` is the ordering
policy. -/

section tree_engine

/-- Modelled from the spec: the nodes below a link (section 3, Node): an
absent child, or a node with a color, a left subtree, a key payload and a
right subtree.  The tree class that owns the nodes is not in the sources. -/
inductive subtree (K : Type) where
  | nil : subtree K
  | node (c : rb_tree_color) (l : subtree K) (k : K) (r : subtree K) : subtree K
deriving DecidableEq, Repr

/-- Modelled from the spec: the parent link of a node, as the step from the
node up to its parent (section 3): the node is the left child of a parent
with color `c`, key `k` and right subtree `r`, or the right child of a parent
with left subtree `l`.  The tree class is not in the sources. -/
inductive parent_step (K : Type) where
  | left (c : rb_tree_color) (k : K) (r : subtree K) : parent_step K
  | right (c : rb_tree_color) (l : subtree K) (k : K) : parent_step K
deriving DecidableEq, Repr

namespace subtree

variable {K : Type}

/-- Modelled from the spec: the color of what a link holds, an absent child
being treated as black (section 3); the tree class is not in the sources. -/
def color : subtree K → rb_tree_color
  | .nil => .black
  | .node c _ _ _ => c

/-- Modelled from the spec: recoloring a node in place (section 3, "only
color/links change"); the tree class is not in the sources. -/
def set_color (c : rb_tree_color) : subtree K → subtree K
  | .nil => .nil
  | .node _ l k r => .node c l k r

/-- Modelled from the spec: the keys of a subtree in in-order (section 1,
"in-order iteration"); the tree class is not in the sources. -/
def keys : subtree K → List K
  | .nil => []
  | .node _ l k r => l.keys ++ k :: r.keys

/-- Modelled from the spec: the left rotation, "a local pointer
rearrangement that changes subtree shape while preserving in-order key
sequence" (glossary), as a function from the subtree at the pivot to the
updated subtree (section 9); the rotation code is not in the sources. -/
def rotate_left : subtree K → subtree K
  | .node c a x (.node d b y e) => .node d (.node c a x b) y e
  | t => t

/-- Modelled from the spec: the right rotation (glossary, section 9); the
rotation code is not in the sources. -/
def rotate_right : subtree K → subtree K
  | .node c (.node d a x b) y e => .node d a x (.node c b y e)
  | t => t

/-- Modelled from the spec: invariant 3 (section 3), no red node has a red
child; the tree class is not in the sources. -/
def no_red_red : subtree K → Prop
  | .nil => True
  | .node c l _ r =>
    (c = .red → l.color = .black ∧ r.color = .black) ∧ l.no_red_red ∧ r.no_red_red

/-- Modelled from the spec: for every path from a node down to a descendant
absent-child position, the number of black nodes it passes through, the node
itself counted (section 3, invariant 4); the tree class is not in the
sources. -/
def black_counts : subtree K → List Nat
  | .nil => [0]
  | .node c l _ r =>
    (l.black_counts ++ r.black_counts).map (fun n => if c = .black then n + 1 else n)

/-- Modelled from the spec: invariant 4 (section 3), at every node all the
paths from it to a descendant absent-child position pass through the same
number of black nodes; the tree class is not in the sources. -/
def uniform_black : subtree K → Prop
  | .nil => True
  | .node c l k r =>
    (∀ a ∈ (subtree.node c l k r).black_counts, ∀ b ∈ (subtree.node c l k r).black_counts,
      a = b) ∧ l.uniform_black ∧ r.uniform_black

/-- The number of black nodes on every path down from the root of `t` is
`n`. -/
def black_height : subtree K → Nat → Prop
  | .nil, n => n = 0
  | .node c l _ r, n =>
    if c = .black then ∃ m, n = m + 1 ∧ l.black_height m ∧ r.black_height m
    else l.black_height n ∧ r.black_height n

end subtree

namespace parent_step

variable {K : Type}

/-- Modelled from the spec: the color of the parent (section 3); the tree
class is not in the sources. -/
def color : parent_step K → rb_tree_color
  | .left c _ _ => c
  | .right c _ _ => c

/-- Modelled from the spec: the parent's other child, the sibling of the
node (section 4.3); the tree class is not in the sources. -/
def sibling : parent_step K → subtree K
  | .left _ _ r => r
  | .right _ l _ => l

/-- Modelled from the spec: the parent with another subtree as its other
child (section 4.3, recoloring the uncle); the tree class is not in the
sources. -/
def set_sibling (s : subtree K) : parent_step K → parent_step K
  | .left c k _ => .left c k s
  | .right c _ k => .right c s k

/-- Modelled from the spec: the parent node with `t` linked as the child the
step comes from (section 3); the tree class is not in the sources. -/
def attach (t : subtree K) : parent_step K → subtree K
  | .left c k r => .node c t k r
  | .right c l k => .node c l k t

end parent_step

variable {K : Type}

/-- Modelled from the spec: the whole tree seen from a subtree `t` and the
parent links `up` from it to the root, nearest parent first (section 3); the
tree class is not in the sources. -/
def plug (t : subtree K) : List (parent_step K) → subtree K
  | [] => t
  | p :: up => plug (p.attach t) up

/-- Modelled from the spec: insert-fixup (section 4.3) for the red node `x`
whose parent links are `up`; the result is the whole tree before the final
recoloring of the root.  It terminates if `x` is the root or its parent is
black; with a red parent and a red uncle it recolors parent and uncle black
and the grandparent red and repeats from the grandparent; with a black or
absent uncle it first rotates the parent of an inner grandchild to get the
straight-line shape, then recolors the parent of that shape black and the
grandparent red and rotates the grandparent away from the long side.  A red
parent without a grandparent is the root, which the recoloring that ends
every insert rules out; the fixup ends there.  The balancing code is not in
the sources. -/
def insert_fixup : subtree K → List (parent_step K) → subtree K
  | x, [] => x
  | x, [p] => plug x [p]
  | x, p :: g :: up =>
    if p.color = .black then
      plug x (p :: g :: up)
    else if g.sibling.color = .red then
      insert_fixup
        (((g.set_sibling (g.sibling.set_color .black)).attach
          ((p.attach x).set_color .black)).set_color .red) up
    else
      match p, g with
      | .left _ _ _, .left _ _ _ =>
        plug (((g.attach ((p.attach x).set_color .black)).set_color .red).rotate_right) up
      | .right _ _ _, .left _ _ _ =>
        plug (((g.attach (((p.attach x).rotate_left).set_color .black)).set_color
          .red).rotate_right) up
      | .right _ _ _, .right _ _ _ =>
        plug (((g.attach ((p.attach x).set_color .black)).set_color .red).rotate_left) up
      | .left _ _ _, .right _ _ _ =>
        plug (((g.attach (((p.attach x).rotate_right).set_color .black)).set_color
          .red).rotate_left) up

/-- Modelled from the spec: the descent of `insert_equal` (sections 2, 6) to
the absent-child position where the key `k` is linked: left where `k`
precedes the node's key, else right, so that an equal key is placed after the
equal keys met; the result is the parent links of that position.  The tree
class is not in the sources. -/
def locate_equal [LinearOrder K] (k : K) : subtree K → List (parent_step K) →
    List (parent_step K)
  | .nil, up => up
  | .node c l x r, up =>
    if k < x then locate_equal k l (.left c x r :: up)
    else locate_equal k r (.right c l x :: up)

/-- Modelled from the spec: the descent of `insert_unique` (sections 2, 6):
`none` when a node holds an equivalent key (neither `k < x` nor `x < k`),
else the parent links of the absent-child position where `k` is linked.  The
tree class is not in the sources. -/
def locate_unique [LinearOrder K] (k : K) : subtree K → List (parent_step K) →
    Option (List (parent_step K))
  | .nil, up => some up
  | .node c l x r, up =>
    if k < x then locate_unique k l (.left c x r :: up)
    else if x < k then locate_unique k r (.right c l x :: up)
    else none

/-- Modelled from the spec: the tree with its header (section 3): the root
the header's parent link anchors and the header's node count.  The header's
left and right links cache `minimum` and `maximum` of the root and are not
stored.  The tree class is not in the sources. -/
structure rb_tree (K : Type) where
  root : subtree K
  node_count : Nat
deriving DecidableEq, Repr

/-- Modelled from the spec: a position of the traversal engine (sections 2,
4.4): the header, which is the end sentinel, or a node with its color,
children and key and its parent links up to the root.  The iterator is not
in the sources. -/
inductive position (K : Type) where
  | header : position K
  | node (c : rb_tree_color) (l : subtree K) (k : K) (r : subtree K)
      (up : List (parent_step K)) : position K
deriving DecidableEq, Repr

/-- Modelled from the spec: the position of the minimum node of the subtree
`t` whose parent links are `up`, found by following left links (section 4.4);
for an absent subtree, the header.  The traversal code is not in the
sources. -/
def leftmost : subtree K → List (parent_step K) → position K
  | .nil, _ => .header
  | .node c l k r, up =>
    match l with
    | .nil => .node c .nil k r up
    | .node _ _ _ _ => leftmost l (.left c k r :: up)

/-- Modelled from the spec: the climb of Successor (section 4.4) from the
node `x` with parent links `up`: "climb via parent links until X is a left
child of its parent, then return that parent (or the header if no such parent
exists)".  The traversal code is not in the sources. -/
def climb (x : subtree K) : List (parent_step K) → position K
  | [] => .header
  | .left c k r :: up => .node c x k r up
  | .right c l k :: up => climb (.node c l k x) up

/-- Modelled from the spec: Successor (section 4.4): "if X has a right child,
return its minimum; otherwise climb".  The header has no successor and is
left as it is.  The traversal code is not in the sources. -/
def successor : position K → position K
  | .header => .header
  | .node c l k r up =>
    match r with
    | .nil => climb (.node c l k r) up
    | .node _ _ _ _ => leftmost r (.right c l k :: up)

/-- Modelled from the spec: the in-order traversal from a position to the
end sentinel by repeated successor steps (sections 4.4, 8), yielding the keys
met; `fuel` bounds the number of nodes visited and `none` means it ran out.
The traversal code is not in the sources. -/
def walk : Nat → position K → Option (List K)
  | _, .header => some []
  | 0, .node _ _ _ _ _ => none
  | fuel + 1, .node c l k r up => (walk fuel (successor (.node c l k r up))).map (fun ks => k :: ks)

/-- Modelled from the spec: the last case of delete-fixup (section 4.3) for a
node `x` that is the left child of a parent with color `pc` and key `pk`,
its sibling `w` having a red far child: `w` takes the parent's color, the
parent and the far child turn black and the parent is rotated toward `x`.
The balancing code is not in the sources. -/
def delete_far_red_left (x : subtree K) (pc : rb_tree_color) (pk : K) : subtree K → subtree K
  | .nil => .node pc x pk .nil
  | .node _ wl wk wr =>
    (subtree.node .black x pk (.node pc wl wk (wr.set_color .black))).rotate_left

/-- Modelled from the spec: the black-sibling cases of delete-fixup (section
4.3) for a node `x` that is the left child of a parent with color `pc` and
key `pk` and has the sibling `w`.  The result is the subtree that takes the
parent's place and whether the fixup focus moves up to it: with a red far
child, the last case; with a red near child and a black far child, `w` turns
red, its near child black, `w` is rotated away from `x`, and the last case
follows; with both children black, `w` turns red and the focus moves up.
The balancing code is not in the sources. -/
def delete_step_left (x : subtree K) (pc : rb_tree_color) (pk : K) :
    subtree K → subtree K × Bool
  | .nil => (.node pc x pk .nil, true)
  | .node wc wl wk wr =>
    if wr.color = .red then
      (delete_far_red_left x pc pk (.node wc wl wk wr), false)
    else if wl.color = .red then
      (delete_far_red_left x pc pk
        (subtree.node .red (wl.set_color .black) wk wr).rotate_right, false)
    else
      (.node pc x pk (.node .red wl wk wr), true)

/-- Modelled from the spec: the last case of delete-fixup (section 4.3) for a
node `x` that is the right child of its parent, the sibling `w` having a red
far child.  The balancing code is not in the sources. -/
def delete_far_red_right (x : subtree K) (pc : rb_tree_color) (pk : K) : subtree K → subtree K
  | .nil => .node pc .nil pk x
  | .node _ wl wk wr =>
    (subtree.node .black (.node pc (wl.set_color .black) wk wr) pk x).rotate_right

/-- Modelled from the spec: the black-sibling cases of delete-fixup (section
4.3) for a node `x` that is the right child of its parent, symmetric to
`delete_step_left`.  The balancing code is not in the sources. -/
def delete_step_right (x : subtree K) (pc : rb_tree_color) (pk : K) :
    subtree K → subtree K × Bool
  | .nil => (.node pc .nil pk x, true)
  | .node wc wl wk wr =>
    if wl.color = .red then
      (delete_far_red_right x pc pk (.node wc wl wk wr), false)
    else if wr.color = .red then
      (delete_far_red_right x pc pk
        (subtree.node .red wl wk (wr.set_color .black)).rotate_left, false)
    else
      (.node pc (.node .red wl wk wr) pk x, true)

/-- Modelled from the spec: delete-fixup (section 4.3) at the replacement `x`
of a spliced-out black node, with the parent links `up`; the result is the
whole tree.  At the root the walk ends; a red `x` turns black and ends it
(the classic case analysis the section refers to).  With a red sibling, the
sibling turns black, the parent red, and the parent is rotated toward `x`;
the black-sibling cases follow with the new sibling, and as the parent is
now red, a focus that moves up to it ends the walk by turning it black.
With a black sibling the black-sibling cases apply and the walk repeats from
the parent when the focus moves up.  The balancing code is not in the
sources. -/
def delete_fixup : subtree K → List (parent_step K) → subtree K
  | x, [] => x.set_color .black
  | x, p :: up =>
    if x.color = .red then
      plug (x.set_color .black) (p :: up)
    else
      match p with
      | .left pc pk w =>
        match w with
        | .node .red wl wk wr =>
          let st := delete_step_left x .red pk wl
          plug (if st.2 then st.1.set_color .black else st.1) (.left .black wk wr :: up)
        | _ =>
          let st := delete_step_left x pc pk w
          if st.2 then delete_fixup st.1 up else plug st.1 up
      | .right pc w pk =>
        match w with
        | .node .red wl wk wr =>
          let st := delete_step_right x .red pk wr
          plug (if st.2 then st.1.set_color .black else st.1) (.right .black wl wk :: up)
        | _ =>
          let st := delete_step_right x pc pk w
          if st.2 then delete_fixup st.1 up else plug st.1 up

/-- Modelled from the spec: the structural removal of a node of color `c`
that has at most one child (section 4.3): its child `x`, or the absent
child, takes its place under the parent links `up`; no fixup is needed when
the removed node was red, and delete-fixup runs from `x` when it was black.
The result is the whole tree.  The removal code is not in the sources. -/
def unlink (c : rb_tree_color) (x : subtree K) (up : List (parent_step K)) : subtree K :=
  if c = .black then delete_fixup x up else plug x up

/-- Modelled from the spec: the removal of the node at a position (sections
2, 4.3): a node with at most one child is unlinked; for a node with two
children the payload of its in-order successor, the minimum of its right
subtree, is substituted and the successor, which has no left child, is
unlinked.  The result is the new root; the header holds no node and gives
`none`.  The removal code is not in the sources. -/
def erase_at : position K → Option (subtree K)
  | .header => none
  | .node c l _ r up =>
    match l, r with
    | .nil, _ => some (unlink c r up)
    | .node _ _ _ _, .nil => some (unlink c l up)
    | .node _ _ _ _, .node _ _ _ _ =>
      match leftmost r [] with
      | .header => none
      | .node yc _ yk yr down => some (unlink yc yr (down ++ .right c l yk :: up))

namespace rb_tree

/-- Modelled from the spec: the initially empty tree (sections 3, 8): no
root, node count zero.  The tree class is not in the sources. -/
def empty : rb_tree K := { root := .nil, node_count := 0 }

/-- Modelled from the spec: `size()` (section 6), the header's node count;
the tree class is not in the sources. -/
def size (t : rb_tree K) : Nat := t.node_count

/-- Modelled from the spec: `begin()` (section 6), the position of the
cached minimum node, which is the end sentinel in the empty tree; the tree
class is not in the sources. -/
def begin_pos (t : rb_tree K) : position K := leftmost t.root []

/-- Modelled from the spec: `end()` (section 6), the header sentinel; the
tree class is not in the sources. -/
def end_pos (_t : rb_tree K) : position K := .header

/-- Modelled from the spec: the iterator reached from `begin()` by `i`
successor steps (section 4.4); the iterator is not in the sources. -/
def nth_pos (t : rb_tree K) : Nat → position K
  | 0 => t.begin_pos
  | i + 1 => successor (t.nth_pos i)

/-- Modelled from the spec: `insert_equal` (sections 2, 4.3, 6): the key is
linked as a new red leaf at the position the descent finds, insert-fixup
runs, the root is recolored black and the node count grows by one.  The tree
class is not in the sources. -/
def insert_equal [LinearOrder K] (t : rb_tree K) (k : K) : rb_tree K :=
  { root := (insert_fixup (.node .red .nil k .nil) (locate_equal k t.root [])).set_color .black,
    node_count := t.node_count + 1 }

/-- Modelled from the spec: `insert_unique` (sections 2, 4.3, 6): when an
equivalent key exists the tree is unchanged and `inserted` is false; else
the key is linked and fixed up as by `insert_equal`.  The tree class is not
in the sources. -/
def insert_unique [LinearOrder K] (t : rb_tree K) (k : K) : rb_tree K × Bool :=
  match locate_unique k t.root [] with
  | none => (t, false)
  | some up =>
    ({ root := (insert_fixup (.node .red .nil k .nil) up).set_color .black,
       node_count := t.node_count + 1 }, true)

/-- Modelled from the spec: `erase(iterator)` (section 6) for a position of
this tree: the node is removed and the node count drops by one; `none` for
the end sentinel, which holds no element.  The tree class is not in the
sources. -/
def erase (t : rb_tree K) (it : position K) : Option (rb_tree K) :=
  (erase_at it).map (fun r => { root := r, node_count := t.node_count - 1 })

/-- Modelled from the spec: the keys an in-order traversal from `begin()` to
`end()` by repeated successor steps yields (sections 4.4, 8); `none` when
the traversal has not reached the end within `fuel` nodes.  The tree class
is not in the sources. -/
def traverse (t : rb_tree K) (fuel : Nat) : Option (List K) := walk fuel t.begin_pos

end rb_tree

/-- Modelled from the spec: a public mutation of the tree (section 6):
`insert_unique(k)`, `insert_equal(k)`, or `erase(it)` for the iterator `it`
reached from `begin()` by `i` successor steps.  The tree class is not in the
sources. -/
inductive tree_op (K : Type) where
  | insert_unique (k : K) : tree_op K
  | insert_equal (k : K) : tree_op K
  | erase (i : Nat) : tree_op K
deriving DecidableEq, Repr

/-- Modelled from the spec: whether the mutation is an insert. -/
def tree_op.inserts : tree_op K → Bool
  | .insert_unique _ => true
  | .insert_equal _ => true
  | .erase _ => false

/-- Modelled from the spec: the tree after one mutation (section 6); `none`
for an `erase` of the end sentinel.  The tree class is not in the sources. -/
def tree_apply [LinearOrder K] (t : rb_tree K) : tree_op K → Option (rb_tree K)
  | .insert_unique k => some (t.insert_unique k).1
  | .insert_equal k => some (t.insert_equal k)
  | .erase i => t.erase (t.nth_pos i)

/-- Modelled from the spec: the tree after a sequence of mutations, first to
last (section 8).  The tree class is not in the sources. -/
def tree_run [LinearOrder K] : List (tree_op K) → rb_tree K → Option (rb_tree K)
  | [], t => some t
  | op :: ops, t => (tree_apply t op).bind (tree_run ops)
/-- The keys that precede, in in-order, the subtree whose parent links are
`up`. -/
def keys_before : List (parent_step K) → List K
  | [] => []
  | .left _ _ _ :: up => keys_before up
  | .right _ l k :: up => keys_before up ++ (l.keys ++ [k])

/-- The keys that follow, in in-order, the subtree whose parent links are
`up`. -/
def keys_after : List (parent_step K) → List K
  | [] => []
  | .left _ k r :: up => k :: r.keys ++ keys_after up
  | .right _ _ _ :: up => keys_after up

/-- The keys from a position to the end of the in-order sequence. -/
def position.rest : position K → List K
  | .header => []
  | .node _ _ k r up => k :: r.keys ++ keys_after up

/-- The position is the end sentinel or a node of the tree with root
`root`. -/
def position.within (root : subtree K) : position K → Prop
  | .header => True
  | .node c l k r up => plug (.node c l k r) up = root

/-- The keys of the tree are in non-decreasing order and the node count is
their number. -/
def rb_tree.ordered [LinearOrder K] (t : rb_tree K) : Prop :=
  t.root.keys.Sorted (fun a b => a ≤ b) ∧ t.node_count = t.root.keys.length

/-- The nearest parent, when there is one, is black. -/
def parent_black : List (parent_step K) → Prop
  | [] => True
  | p :: _ => p.color = .black

/-- The parent links `up` are those of a position of black height `h` in a
tree that satisfies invariants 3 and 4 around the position: every sibling on
the way up has the black height of the subtree beside it and no red-red
pair, and a red parent has a black sibling child and a black parent. -/
def steps_ok : List (parent_step K) → Nat → Prop
  | [], _ => True
  | p :: up, h =>
    p.sibling.black_height h ∧ p.sibling.no_red_red ∧
      (p.color = .red → p.sibling.color = .black ∧ parent_black up) ∧
      steps_ok up (if p.color = .black then h + 1 else h)

/-- The tree satisfies invariant 3 and has a black height. -/
def rb_tree.balanced (t : rb_tree K) : Prop :=
  t.root.no_red_red ∧ ∃ n, t.root.black_height n

/-- Invariant 3 is decided node by node. -/
def subtree.no_red_red_decide : (t : subtree K) → Decidable t.no_red_red
  | .nil => isTrue trivial
  | .node c l _ r =>
    match (inferInstance : Decidable (c = .red → l.color = .black ∧ r.color = .black)),
      subtree.no_red_red_decide l, subtree.no_red_red_decide r with
    | isTrue h1, isTrue h2, isTrue h3 => isTrue ⟨h1, h2, h3⟩
    | isFalse h1, _, _ => isFalse (fun h => h1 h.1)
    | _, isFalse h2, _ => isFalse (fun h => h2 h.2.1)
    | _, _, isFalse h3 => isFalse (fun h => h3 h.2.2)

instance (t : subtree K) : Decidable t.no_red_red := subtree.no_red_red_decide t

/-- Invariant 4 is decided node by node. -/
def subtree.uniform_black_decide : (t : subtree K) → Decidable t.uniform_black
  | .nil => isTrue trivial
  | .node c l k r =>
    match (inferInstance : Decidable (∀ a ∈ (subtree.node c l k r).black_counts,
        ∀ b ∈ (subtree.node c l k r).black_counts, a = b)),
      subtree.uniform_black_decide l, subtree.uniform_black_decide r with
    | isTrue h1, isTrue h2, isTrue h3 => isTrue ⟨h1, h2, h3⟩
    | isFalse h1, _, _ => isFalse (fun h => h1 h.1)
    | _, isFalse h2, _ => isFalse (fun h => h2 h.2.1)
    | _, _, isFalse h3 => isFalse (fun h => h3 h.2.2)

instance (t : subtree K) : Decidable t.uniform_black := subtree.uniform_black_decide t

end tree_engine

/-- A memory holding one tree: the header at address 1 with node count 3,
the black root at 5, its red children at 4 and 6; every other cell is a
black node with null links and count 0. -/
def Mem.sample : Mem :=
  { nodes := fun a =>
      if a = 1 then { m_color := .red, m_parent := some 5, m_left := some 4, m_right := some 6 }
      else if a = 5 then
        { m_color := .black, m_parent := some 1, m_left := some 4, m_right := some 6 }
      else if a = 4 then { m_color := .red, m_parent := some 5, m_left := none, m_right := none }
      else if a = 6 then { m_color := .red, m_parent := some 5, m_left := none, m_right := none }
      else { m_color := .black, m_parent := none, m_left := none, m_right := none },
    counts := fun a => if a = 1 then 3 else 0 }

/-- The shape of the tree in `Mem.sample`. -/
def Shape.sample : Shape := .node (.node .nil 4 .nil) 5 (.node .nil 6 .nil)

open rb_tree_header rb_tree_node_base

/-! ## Reading the memory after a store -/

@[simp] theorem Mem.set_node_nodes (m : Mem) (a b : Nat) (n : ft.rb_tree_node_base) :
    (m.set_node a n).nodes b = if b = a then n else m.nodes b := rfl

@[simp] theorem Mem.set_node_counts (m : Mem) (a : Nat) (n : ft.rb_tree_node_base) :
    (m.set_node a n).counts = m.counts := rfl

@[simp] theorem Mem.set_count_nodes (m : Mem) (a n : Nat) :
    (m.set_count a n).nodes = m.nodes := rfl

@[simp] theorem Mem.set_count_counts (m : Mem) (a b n : Nat) :
    (m.set_count a n).counts b = if b = a then n else m.counts b := rfl

/-! ## The header -/

/-- C1: for every header, after default construction and after any call of
`__reset()`, the header is in the empty state: the parent link is null, the
left and right links point at the header's own node, and the node count is
zero. -/
theorem header_empty_after_ctor_and_reset (m : Mem) (this : Nat) :
    EmptyState (ctor m this) this ∧ EmptyState (__reset m this) this := by
  simp [EmptyState, ctor, __reset, Mem.set_parent, Mem.set_left, Mem.set_right, Mem.set_color]

theorem move_data_spec (m : Mem) (this x r : Nat)
    (hroot : (m.nodes x).m_parent = some r) (hdst : this ≠ x) (hr : r ≠ x) :
    ∃ m1, __move_data m this x = some m1 ∧
      (m1.nodes this).m_parent = some r ∧
      (m1.nodes this).m_left = (m.nodes x).m_left ∧
      (m1.nodes this).m_right = (m.nodes x).m_right ∧
      m1.counts this = m.counts x ∧
      (m1.nodes r).m_parent = some this ∧
      ∀ c, c ≠ this → c ≠ x →
        (m1.nodes c).m_left = (m.nodes c).m_left ∧ (m1.nodes c).m_right = (m.nodes c).m_right := by
  have hx : x ≠ this := fun h => hdst h.symm
  have hr2 : x ≠ r := fun h => hr h.symm
  by_cases hrt : this = r
  · subst hrt
    simp [__move_data, __reset, Mem.set_parent, Mem.set_left, Mem.set_right, Mem.set_color,
      hx, hdst, hroot]
    intro c hc1 hc2
    simp [hc1, hc2]
  · have hrt2 : r ≠ this := fun h => hrt h.symm
    simp [__move_data, __reset, Mem.set_parent, Mem.set_left, Mem.set_right, Mem.set_color,
      hx, hdst, hroot, hr, hr2, hrt, hrt2]
    intro c hc1 hc2
    by_cases hcr : c = r
    · subst hcr
      simp [hc1, hc2]
    · simp [hc1, hc2, hcr]

/-- C2: move-transfer from a source header `x` whose root link is the
non-null `r` into a destination header `this` (the two are distinct header
objects, and the root is a node other than the source's own header node):
`__move_data`, and the move constructor, which calls it, succeed and give the
destination exactly the source's former root, leftmost link, rightmost link
and node count, and the former root's parent link points at the destination's
header node. -/
theorem move_transfer_takes_over (m : Mem) (this x r : Nat)
    (hroot : (m.nodes x).m_parent = some r) (hdst : this ≠ x) (hr : r ≠ x) :
    ∃ m1, __move_data m this x = some m1 ∧ move_ctor m this x = some m1 ∧
      (m1.nodes this).m_parent = some r ∧
      (m1.nodes this).m_left = (m.nodes x).m_left ∧
      (m1.nodes this).m_right = (m.nodes x).m_right ∧
      m1.counts this = m.counts x ∧
      (m1.nodes r).m_parent = some this := by
  obtain ⟨m1, h1, h2, h3, h4, h5, h6, _⟩ := move_data_spec m this x r hroot hdst hr
  exact ⟨m1, h1, by simp [move_ctor, hroot, h1], h2, h3, h4, h5, h6⟩


/-- The instance of C2 on `Mem.sample`: the header at 1 is moved into the
storage at 2. -/
theorem move_transfer_takes_over_witness :
    (Mem.sample.nodes 1).m_parent = some 5 ∧
    ∃ m1, __move_data Mem.sample 2 1 = some m1 ∧ move_ctor Mem.sample 2 1 = some m1 ∧
      (m1.nodes 2).m_parent = some 5 ∧
      (m1.nodes 2).m_left = (Mem.sample.nodes 1).m_left ∧
      (m1.nodes 2).m_right = (Mem.sample.nodes 1).m_right ∧
      m1.counts 2 = Mem.sample.counts 1 ∧
      (m1.nodes 5).m_parent = some 2 :=
  ⟨rfl, move_transfer_takes_over Mem.sample 2 1 5 rfl (by decide) (by decide)⟩

/-- C3: for every well-formed source header `x` (non-empty, or already in the
empty state), after a header is move-constructed from it the constructor has
returned and the source is in the empty state: parent link null, left and
right links at the source's own header node, node count zero. -/
theorem move_ctor_leaves_source_empty (m : Mem) (this x : Nat)
    (hwf : (m.nodes x).m_parent ≠ none ∨ EmptyState m x) :
    ∃ m1, move_ctor m this x = some m1 ∧ EmptyState m1 x := by
  cases hp : (m.nodes x).m_parent with
  | some r =>
    by_cases hxt : x = this
    · subst hxt
      simp [move_ctor, __move_data, __reset, EmptyState, Mem.set_parent, Mem.set_left,
        Mem.set_right, Mem.set_color, hp]
    · simp [move_ctor, __move_data, __reset, EmptyState, Mem.set_parent, Mem.set_left,
        Mem.set_right, Mem.set_color, hp, hxt]
  | none =>
    have he : EmptyState m x := by
      cases hwf with
      | inl h => exact absurd hp h
      | inr h => exact h
    by_cases hxt : x = this
    · subst hxt
      simp [move_ctor, __reset, EmptyState, Mem.set_parent, Mem.set_left,
        Mem.set_right, Mem.set_color, hp]
    · obtain ⟨h1, h2, h3, h4⟩ := he
      simp [move_ctor, __reset, EmptyState, Mem.set_parent, Mem.set_left,
        Mem.set_right, Mem.set_color, hp, hxt, h2, h3, h4]

/-- The instance of C3 on `Mem.sample`, whose header at 1 is non-empty. -/
theorem move_ctor_leaves_source_empty_witness :
    ((Mem.sample.nodes 1).m_parent ≠ none ∨ EmptyState Mem.sample 1) ∧
    ∃ m1, move_ctor Mem.sample 2 1 = some m1 ∧ EmptyState m1 1 :=
  ⟨Or.inl (by decide), move_ctor_leaves_source_empty Mem.sample 2 1 (Or.inl (by decide))⟩

/-- C4: move-constructing a header from a source `x` whose root link is null
does not run `__move_data` (which would dereference the null root link and
has no result there): the constructor takes the other branch, returns, and
the destination is in the empty state, its left and right links at the
destination's own header node and, the source being another object, not at
the source's; the parent link is null and the node count zero. -/
theorem move_ctor_from_null_root (m : Mem) (this x : Nat)
    (hnull : (m.nodes x).m_parent = none) :
    __move_data m this x = none ∧
    move_ctor m this x = some (__reset (m.set_color this rb_tree_color.red) this) ∧
    ∃ m1, move_ctor m this x = some m1 ∧ EmptyState m1 this ∧
      (this ≠ x → (m1.nodes this).m_left ≠ some x ∧ (m1.nodes this).m_right ≠ some x) := by
  refine ⟨?_, ?_, ?_⟩
  · by_cases hxt : x = this
    · subst hxt
      simp [__move_data, Mem.set_parent, Mem.set_left, Mem.set_right, Mem.set_color, hnull]
    · simp [__move_data, Mem.set_parent, Mem.set_left, Mem.set_right, Mem.set_color, hnull, hxt]
  · simp [move_ctor, hnull]
  · refine ⟨__reset (m.set_color this rb_tree_color.red) this, by simp [move_ctor, hnull], ?_, ?_⟩
    · simp [EmptyState, __reset, Mem.set_parent, Mem.set_left, Mem.set_right, Mem.set_color]
    · intro hne
      simp [__reset, Mem.set_parent, Mem.set_left, Mem.set_right, Mem.set_color, hne]

/-- The instance of C4 on the default-constructed header at 1, moved into the
storage at 2. -/
theorem move_ctor_from_null_root_witness :
    ((ctor Mem.sample 1).nodes 1).m_parent = none ∧
    (__move_data (ctor Mem.sample 1) 2 1 = none ∧
    move_ctor (ctor Mem.sample 1) 2 1 =
      some (__reset ((ctor Mem.sample 1).set_color 2 rb_tree_color.red) 2) ∧
    ∃ m1, move_ctor (ctor Mem.sample 1) 2 1 = some m1 ∧ EmptyState m1 2 ∧
      (2 ≠ 1 → (m1.nodes 2).m_left ≠ some 1 ∧ (m1.nodes 2).m_right ≠ some 1)) :=
  ⟨rfl, move_ctor_from_null_root (ctor Mem.sample 1) 2 1 rfl⟩

/-! ## The color of the header -/

theorem reset_color (m : Mem) (a b : Nat) :
    ((__reset m a).nodes b).m_color = (m.nodes b).m_color := by
  by_cases h : b = a
  · subst h
    simp [__reset, Mem.set_parent, Mem.set_left, Mem.set_right]
  · simp [__reset, Mem.set_parent, Mem.set_left, Mem.set_right, h]

theorem ctor_color (m : Mem) (a b : Nat) :
    ((ctor m a).nodes b).m_color = if b = a then rb_tree_color.red else (m.nodes b).m_color := by
  by_cases h : b = a
  · subst h
    simp [ctor, reset_color, Mem.set_color]
  · simp [ctor, reset_color, Mem.set_color, h]

theorem move_data_color (m m1 : Mem) (a x b : Nat) (h : __move_data m a x = some m1) :
    (m1.nodes b).m_color = if b = a then (m.nodes x).m_color else (m.nodes b).m_color := by
  unfold __move_data at h
  simp only [] at h
  split at h
  · exact absurd h (by simp)
  · rename_i r hr
    simp only [Option.some.injEq] at h
    subst h
    rw [reset_color]
    by_cases hb : b = a
    · subst hb
      by_cases hbr : b = r
      · subst hbr
        simp [Mem.set_parent, Mem.set_left, Mem.set_right, Mem.set_color]
      · simp [Mem.set_parent, Mem.set_left, Mem.set_right, Mem.set_color, hbr]
    · by_cases hbr : b = r
      · subst hbr
        by_cases hab : a = b
        · exact absurd hab.symm hb
        · simp [Mem.set_parent, Mem.set_left, Mem.set_right, Mem.set_color, hb, hab]
      · simp [Mem.set_parent, Mem.set_left, Mem.set_right, Mem.set_color, hb, hbr]

theorem move_ctor_color (m m1 : Mem) (a x b : Nat) (h : move_ctor m a x = some m1) :
    (m1.nodes b).m_color =
      if b = a then (if (m.nodes x).m_parent ≠ none then (m.nodes x).m_color
        else rb_tree_color.red)
      else (m.nodes b).m_color := by
  unfold move_ctor at h
  by_cases hp : (m.nodes x).m_parent ≠ none
  · rw [if_pos hp] at h
    rw [move_data_color m m1 a x b h, if_pos hp]
  · rw [if_neg hp] at h
    simp only [Option.some.injEq] at h
    subst h
    rw [reset_color, if_neg hp]
    by_cases hb : b = a
    · subst hb
      simp [Mem.set_color]
    · simp [Mem.set_color, hb]

theorem step_allRed (s s1 : Mem × List Nat) (op : header_op) (hs : AllRed s)
    (h : step s op = some s1) : AllRed s1 := by
  cases op with
  | construct a =>
    simp only [step, Option.some.injEq] at h
    subst h
    intro b hb
    simp only [ctor_color]
    by_cases hba : b = a
    · simp [hba]
    · rw [if_neg hba]
      exact hs b (by simpa [hba] using hb)
  | move_construct a x =>
    simp only [step] at h
    split at h
    · rename_i hx
      cases hm : move_ctor s.1 a x with
      | none => simp [hm] at h
      | some m1 =>
        simp only [hm, Option.map_some', Option.some.injEq] at h
        subst h
        intro b hb
        simp only [move_ctor_color s.1 m1 a x b hm]
        by_cases hba : b = a
        · rw [if_pos hba]
          split
          · exact hs x hx
          · rfl
        · rw [if_neg hba]
          exact hs b (by simpa [hba] using hb)
    · exact absurd h (by simp)
  | move_data a x =>
    simp only [step] at h
    split at h
    · rename_i hax
      cases hm : __move_data s.1 a x with
      | none => simp [hm] at h
      | some m1 =>
        simp only [hm, Option.map_some', Option.some.injEq] at h
        subst h
        intro b hb
        simp only [move_data_color s.1 m1 a x b hm]
        by_cases hba : b = a
        · rw [if_pos hba]
          exact hs x hax.2
        · rw [if_neg hba]
          exact hs b hb
    · exact absurd h (by simp)
  | reset a =>
    simp only [step] at h
    split at h
    · simp only [Option.some.injEq] at h
      subst h
      intro b hb
      simp only [reset_color]
      exact hs b hb
    · exact absurd h (by simp)

theorem run_allRed (ops : List header_op) :
    ∀ s s1 : Mem × List Nat, AllRed s → run ops s = some s1 → AllRed s1 := by
  induction ops with
  | nil =>
    intro s s1 hs h
    simp only [run, Option.some.injEq] at h
    subst h
    exact hs
  | cons op ops ih =>
    intro s s1 hs h
    simp only [run] at h
    cases hst : step s op with
    | none => simp [hst] at h
    | some s2 =>
      simp only [hst, Option.some_bind] at h
      exact ih s2 s1 (step_allRed s s2 op hs hst) h

/-- C5: the header's color is fixed red: a default-constructed header is
red, `__reset` leaves the color unchanged, move construction and
`__move_data` from a red source yield a red destination and leave the source
red; hence red headers stay red under every sequence of these operations,
and every header reached from default construction by them is red. -/
theorem header_color_fixed_red :
    (∀ (m : Mem) (this : Nat), ((ctor m this).nodes this).m_color = rb_tree_color.red) ∧
    (∀ (m : Mem) (this b : Nat), ((__reset m this).nodes b).m_color = (m.nodes b).m_color) ∧
    (∀ (m m1 : Mem) (this x : Nat), (m.nodes x).m_color = rb_tree_color.red →
      __move_data m this x = some m1 →
      (m1.nodes this).m_color = rb_tree_color.red ∧ (m1.nodes x).m_color = rb_tree_color.red) ∧
    (∀ (m m1 : Mem) (this x : Nat), (m.nodes x).m_color = rb_tree_color.red →
      move_ctor m this x = some m1 →
      (m1.nodes this).m_color = rb_tree_color.red ∧ (m1.nodes x).m_color = rb_tree_color.red) ∧
    (∀ (ops : List header_op) (s s1 : Mem × List Nat), AllRed s → run ops s = some s1 →
      AllRed s1) ∧
    (∀ (ops : List header_op) (m : Mem) (s1 : Mem × List Nat), run ops (m, []) = some s1 →
      AllRed s1) := by
  refine ⟨?_, ?_, ?_, ?_, ?_, ?_⟩
  · intro m this
    simp [ctor_color]
  · intro m this b
    exact reset_color m this b
  · intro m m1 this x hx h
    constructor
    · simp [move_data_color m m1 this x this h, hx]
    · rw [move_data_color m m1 this x x h]
      split <;> exact hx
  · intro m m1 this x hx h
    constructor
    · rw [move_ctor_color m m1 this x this h, if_pos rfl]
      split
      · exact hx
      · rfl
    · rw [move_ctor_color m m1 this x x h]
      split
      · split
        · exact hx
        · rfl
      · exact hx
  · intro ops s s1 hs h
    exact run_allRed ops s s1 hs h
  · intro ops m s1 h
    exact run_allRed ops (m, []) s1 (by intro a ha; simp at ha) h

/-- The instance of C5 on `Mem.sample`: the header at 1 is moved into a new
header at 2, a header is default-constructed at 3 and takes the tree over
from 2, and 1 is reset; the three headers are red at the end. -/
theorem header_color_fixed_red_witness :
    AllRed (Mem.sample, [1]) ∧
    ∃ s1, run [.move_construct 2 1, .construct 3, .move_data 3 2, .reset 1] (Mem.sample, [1])
        = some s1 ∧ AllRed s1 := by
  have h0 : AllRed (Mem.sample, [1]) := by
    intro a ha
    simp only [List.mem_singleton] at ha
    subst ha
    rfl
  have hs : (run [.move_construct 2 1, .construct 3, .move_data 3 2, .reset 1]
      (Mem.sample, [1])).isSome = true := rfl
  obtain ⟨s1, h⟩ := Option.isSome_iff_exists.mp hs
  exact ⟨h0, s1, h, header_color_fixed_red.2.2.2.2.1 _ _ s1 h0 h⟩

/-! ## minimum: the descent along left links -/

theorem minimum_loop_spec (m : Mem) :
    ∀ (n a r : Nat), minimum_loop m n a = some r → LeftReach m a r ∧ (m.nodes r).m_left = none := by
  intro n
  induction n with
  | zero =>
    intro a r h
    simp [minimum_loop] at h
  | succ n ih =>
    intro a r h
    cases hl : (m.nodes a).m_left with
    | none =>
      simp only [minimum_loop, hl, Option.some.injEq] at h
      subst h
      exact ⟨LeftReach.refl a, hl⟩
    | some b =>
      simp only [minimum_loop, hl] at h
      obtain ⟨h1, h2⟩ := ih b r h
      exact ⟨LeftReach.step hl h1, h2⟩

theorem minimum_loop_mono (m : Mem) :
    ∀ (n k a r : Nat), minimum_loop m n a = some r → n ≤ k → minimum_loop m k a = some r := by
  intro n
  induction n with
  | zero =>
    intro k a r h
    simp [minimum_loop] at h
  | succ n ih =>
    intro k a r h hk
    obtain ⟨j, rfl⟩ : ∃ j, k = j + 1 := ⟨k - 1, by omega⟩
    cases hl : (m.nodes a).m_left with
    | none =>
      simp only [minimum_loop, hl] at h ⊢
      exact h
    | some b =>
      simp only [minimum_loop, hl] at h ⊢
      exact ih j b r h (by omega)

theorem minimum_loop_at_end (m : Mem) (n r : Nat) (h : (m.nodes r).m_left = none) :
    minimum_loop m (n + 1) r = some r := by
  simp [minimum_loop, h]

theorem minimum_const_loop_eq (m : Mem) :
    ∀ (n a : Nat), minimum_const_loop m n a = minimum_loop m n a := by
  intro n
  induction n with
  | zero =>
    intro a
    rfl
  | succ n ih =>
    intro a
    cases hl : (m.nodes a).m_left with
    | none => simp [minimum_loop, minimum_const_loop, hl]
    | some b => simp [minimum_loop, minimum_const_loop, hl, ih b]

theorem minimum_loop_terminates (m : Mem) :
    ∀ (n : Nat) (S : Finset Nat) (a : Nat), S.card ≤ n →
      (∀ c, LeftReach m a c → c ∈ S) →
      (∀ c d, LeftReach m a c → (m.nodes c).m_left = some d → ¬ LeftReach m d c) →
      ∃ r, minimum_loop m n a = some r := by
  intro n
  induction n with
  | zero =>
    intro S a hS hfin _
    have hpos : 0 < S.card := Finset.card_pos.mpr ⟨a, hfin a (LeftReach.refl a)⟩
    omega
  | succ n ih =>
    intro S a hS hfin hacyc
    cases hl : (m.nodes a).m_left with
    | none => exact ⟨a, by simp [minimum_loop, hl]⟩
    | some b =>
      have haS : a ∈ S := hfin a (LeftReach.refl a)
      have hcard : (S.erase a).card ≤ n := by
        rw [Finset.card_erase_of_mem haS]
        omega
      obtain ⟨r, hr⟩ := ih (S.erase a) b hcard
        (fun c hc => Finset.mem_erase.mpr
          ⟨fun hca => hacyc a b (LeftReach.refl a) hl (hca ▸ hc), hfin c (LeftReach.step hl hc)⟩)
        (fun c d hc hd => hacyc c d (LeftReach.step hl hc) hd)
      exact ⟨r, by simp [minimum_loop, hl, hr]⟩

/-! ## maximum: the descent along right links -/

theorem maximum_loop_spec (m : Mem) :
    ∀ (n a r : Nat), maximum_loop m n a = some r → RightReach m a r ∧ (m.nodes r).m_right = none := by
  intro n
  induction n with
  | zero =>
    intro a r h
    simp [maximum_loop] at h
  | succ n ih =>
    intro a r h
    cases hl : (m.nodes a).m_right with
    | none =>
      simp only [maximum_loop, hl, Option.some.injEq] at h
      subst h
      exact ⟨RightReach.refl a, hl⟩
    | some b =>
      simp only [maximum_loop, hl] at h
      obtain ⟨h1, h2⟩ := ih b r h
      exact ⟨RightReach.step hl h1, h2⟩

theorem maximum_loop_mono (m : Mem) :
    ∀ (n k a r : Nat), maximum_loop m n a = some r → n ≤ k → maximum_loop m k a = some r := by
  intro n
  induction n with
  | zero =>
    intro k a r h
    simp [maximum_loop] at h
  | succ n ih =>
    intro k a r h hk
    obtain ⟨j, rfl⟩ : ∃ j, k = j + 1 := ⟨k - 1, by omega⟩
    cases hl : (m.nodes a).m_right with
    | none =>
      simp only [maximum_loop, hl] at h ⊢
      exact h
    | some b =>
      simp only [maximum_loop, hl] at h ⊢
      exact ih j b r h (by omega)

theorem maximum_loop_at_end (m : Mem) (n r : Nat) (h : (m.nodes r).m_right = none) :
    maximum_loop m (n + 1) r = some r := by
  simp [maximum_loop, h]

theorem maximum_const_loop_eq (m : Mem) :
    ∀ (n a : Nat), maximum_const_loop m n a = maximum_loop m n a := by
  intro n
  induction n with
  | zero =>
    intro a
    rfl
  | succ n ih =>
    intro a
    cases hl : (m.nodes a).m_right with
    | none => simp [maximum_loop, maximum_const_loop, hl]
    | some b => simp [maximum_loop, maximum_const_loop, hl, ih b]

theorem maximum_loop_terminates (m : Mem) :
    ∀ (n : Nat) (S : Finset Nat) (a : Nat), S.card ≤ n →
      (∀ c, RightReach m a c → c ∈ S) →
      (∀ c d, RightReach m a c → (m.nodes c).m_right = some d → ¬ RightReach m d c) →
      ∃ r, maximum_loop m n a = some r := by
  intro n
  induction n with
  | zero =>
    intro S a hS hfin _
    have hpos : 0 < S.card := Finset.card_pos.mpr ⟨a, hfin a (RightReach.refl a)⟩
    omega
  | succ n ih =>
    intro S a hS hfin hacyc
    cases hl : (m.nodes a).m_right with
    | none => exact ⟨a, by simp [maximum_loop, hl]⟩
    | some b =>
      have haS : a ∈ S := hfin a (RightReach.refl a)
      have hcard : (S.erase a).card ≤ n := by
        rw [Finset.card_erase_of_mem haS]
        omega
      obtain ⟨r, hr⟩ := ih (S.erase a) b hcard
        (fun c hc => Finset.mem_erase.mpr
          ⟨fun hca => hacyc a b (RightReach.refl a) hl (hca ▸ hc), hfin c (RightReach.step hl hc)⟩)
        (fun c d hc hd => hacyc c d (RightReach.step hl hc) hd)
      exact ⟨r, by simp [maximum_loop, hl, hr]⟩

/-! ## Finite trees in the memory -/

theorem IsTree.some_inv {m : Mem} {x : Nat} {t : Shape} (h : IsTree m (some x) t) :
    ∃ l r, t = Shape.node l x r ∧ IsTree m (m.nodes x).m_left l ∧
      IsTree m (m.nodes x).m_right r := by
  cases t with
  | nil => simp [IsTree] at h
  | node l b r =>
    simp only [IsTree] at h
    obtain ⟨rfl, h1, h2⟩ := h
    exact ⟨l, r, rfl, h1, h2⟩

theorem IsTree.none_inv {m : Mem} {t : Shape} (h : IsTree m none t) : t = Shape.nil := by
  cases t with
  | nil => rfl
  | node l b r => simp [IsTree] at h

theorem leftReach_mem_addrs (m : Mem) (a c : Nat) (h : LeftReach m a c) :
    ∀ t : Shape, IsTree m (some a) t → c ∈ t.addrs := by
  induction h with
  | refl a =>
    intro t ht
    obtain ⟨l, r, rfl, _, _⟩ := ht.some_inv
    simp [Shape.addrs]
  | step hl _ ih =>
    intro t ht
    obtain ⟨l, r, rfl, h1, _⟩ := ht.some_inv
    rw [hl] at h1
    have := ih l h1
    simp [Shape.addrs, this]

theorem rightReach_mem_addrs (m : Mem) (a c : Nat) (h : RightReach m a c) :
    ∀ t : Shape, IsTree m (some a) t → c ∈ t.addrs := by
  induction h with
  | refl a =>
    intro t ht
    obtain ⟨l, r, rfl, _, _⟩ := ht.some_inv
    simp [Shape.addrs]
  | step hl _ ih =>
    intro t ht
    obtain ⟨l, r, rfl, _, h2⟩ := ht.some_inv
    rw [hl] at h2
    have := ih r h2
    simp [Shape.addrs, this]

theorem minimum_loop_congr (m m1 : Mem) :
    ∀ (n a : Nat), (∀ c, LeftReach m a c → (m1.nodes c).m_left = (m.nodes c).m_left) →
      minimum_loop m1 n a = minimum_loop m n a := by
  intro n
  induction n with
  | zero =>
    intro a _
    rfl
  | succ n ih =>
    intro a h
    have ha := h a (LeftReach.refl a)
    cases hl : (m.nodes a).m_left with
    | none =>
      rw [hl] at ha
      simp [minimum_loop, hl, ha]
    | some b =>
      rw [hl] at ha
      simp only [minimum_loop, hl, ha]
      exact ih b (fun c hc => h c (LeftReach.step hl hc))

theorem maximum_loop_congr (m m1 : Mem) :
    ∀ (n a : Nat), (∀ c, RightReach m a c → (m1.nodes c).m_right = (m.nodes c).m_right) →
      maximum_loop m1 n a = maximum_loop m n a := by
  intro n
  induction n with
  | zero =>
    intro a _
    rfl
  | succ n ih =>
    intro a h
    have ha := h a (RightReach.refl a)
    cases hl : (m.nodes a).m_right with
    | none =>
      rw [hl] at ha
      simp [maximum_loop, hl, ha]
    | some b =>
      rw [hl] at ha
      simp only [maximum_loop, hl, ha]
      exact ih b (fun c hc => h c (RightReach.step hl hc))

/-- C6: move-transfer preserves the min/max cache invariant: for every
non-empty source header `x` over a finite tree `t` (rooted at the source's
root link; the two header nodes are not nodes of the tree, and the
destination `this` is another header than the source) with
`src.left == minimum(src.parent)` and `src.right == maximum(src.parent)`,
`__move_data` succeeds and afterwards the destination satisfies
`dst.left == minimum(dst.parent)` and `dst.right == maximum(dst.parent)`. -/
theorem move_data_keeps_min_max (m : Mem) (this x r : Nat) (t : Shape) (fuel : Nat)
    (hroot : (m.nodes x).m_parent = some r) (ht : IsTree m (some r) t)
    (hsrc : x ∉ t.addrs) (hdst : this ∉ t.addrs) (hne : this ≠ x)
    (hmin : minimum m fuel (m.nodes x).m_parent = some (m.nodes x).m_left)
    (hmax : maximum m fuel (m.nodes x).m_parent = some (m.nodes x).m_right) :
    ∃ m1, __move_data m this x = some m1 ∧
      minimum m1 fuel (m1.nodes this).m_parent = some (m1.nodes this).m_left ∧
      maximum m1 fuel (m1.nodes this).m_parent = some (m1.nodes this).m_right := by
  have hrx : r ≠ x := by
    intro h
    exact hsrc (h ▸ leftReach_mem_addrs m r r (LeftReach.refl r) t ht)
  obtain ⟨m1, h1, h2, h3, h4, _, _, hframe⟩ := move_data_spec m this x r hroot hne hrx
  refine ⟨m1, h1, ?_, ?_⟩
  · rw [h2, h3, ← hmin, hroot]
    simp only [minimum]
    rw [minimum_loop_congr m m1 fuel r]
    intro c hc
    have hmem := leftReach_mem_addrs m r c hc t ht
    exact (hframe c (fun h => hdst (h ▸ hmem)) (fun h => hsrc (h ▸ hmem))).1
  · rw [h2, h4, ← hmax, hroot]
    simp only [maximum]
    rw [maximum_loop_congr m m1 fuel r]
    intro c hc
    have hmem := rightReach_mem_addrs m r c hc t ht
    exact (hframe c (fun h => hdst (h ▸ hmem)) (fun h => hsrc (h ▸ hmem))).2

/-- The instance of C6 on `Mem.sample`: the header at 1 over the tree rooted
at 5 is moved into the header at 2. -/
theorem move_data_keeps_min_max_witness :
    ((Mem.sample.nodes 1).m_parent = some 5 ∧ IsTree Mem.sample (some 5) Shape.sample ∧
      1 ∉ Shape.sample.addrs ∧ 2 ∉ Shape.sample.addrs ∧
      minimum Mem.sample 2 (Mem.sample.nodes 1).m_parent = some (Mem.sample.nodes 1).m_left ∧
      maximum Mem.sample 2 (Mem.sample.nodes 1).m_parent = some (Mem.sample.nodes 1).m_right) ∧
    ∃ m1, __move_data Mem.sample 2 1 = some m1 ∧
      minimum m1 2 (m1.nodes 2).m_parent = some (m1.nodes 2).m_left ∧
      maximum m1 2 (m1.nodes 2).m_parent = some (m1.nodes 2).m_right :=
  have ht : IsTree Mem.sample (some 5) Shape.sample := by
    simp [IsTree, Shape.sample, Mem.sample]
  ⟨⟨rfl, ht, by decide, by decide, rfl, rfl⟩,
    move_data_keeps_min_max Mem.sample 2 1 5 Shape.sample 2 rfl ht (by decide) (by decide)
      (by decide) rfl rfl⟩

/-! ## The leftmost and the rightmost node -/

theorem sample_LeftReach_leaf (c : Nat) (h : LeftReach Mem.sample 4 c) : c = 4 := by
  cases h with
  | refl => rfl
  | step hl _ => simp [Mem.sample] at hl

theorem sample_LeftReach_root (c : Nat) (h : LeftReach Mem.sample 5 c) : c = 5 ∨ c = 4 := by
  cases h with
  | refl => exact Or.inl rfl
  | step hl h2 =>
    simp only [Mem.sample] at hl
    simp at hl
    subst hl
    exact Or.inr (sample_LeftReach_leaf c h2)

theorem sample_LeftReach_in (c : Nat) (h : LeftReach Mem.sample 5 c) : c ∈ ({4, 5, 6} : Finset Nat) := by
  rcases sample_LeftReach_root c h with h1 | h1 <;> subst h1 <;> decide

theorem sample_LeftReach_acyclic (c d : Nat) (h : LeftReach Mem.sample 5 c)
    (hl : (Mem.sample.nodes c).m_left = some d) : ¬ LeftReach Mem.sample d c := by
  rcases sample_LeftReach_root c h with h1 | h1
  · subst h1
    simp only [Mem.sample] at hl
    simp at hl
    subst hl
    intro h3
    have := sample_LeftReach_leaf _ h3
    omega
  · subst h1
    simp [Mem.sample] at hl

/-- C7: `minimum(x)` returns null when `x` is null; for every non-null `x` that
roots a finite tree with no cycle along left links (the nodes reached from
`x` by left links lie in a finite set `S` of cells, and no left link leads
back to a node it was reached from) it terminates, with fuel `S.card`, and
returns the leftmost node of that subtree: the result `r` is reached from
`x` by following only left links, has a null left link, and
`minimum(minimum(x)) == minimum(x)`.  The const overload returns the same node. -/
theorem minimum_returns_leftmost (m : Mem) (S : Finset Nat) (x : Nat)
    (hfin : ∀ c, LeftReach m x c → c ∈ S)
    (hacyc : ∀ c d, LeftReach m x c → (m.nodes c).m_left = some d → ¬ LeftReach m d c) :
    (∀ fuel, minimum m fuel none = some none ∧ minimum_const m fuel none = some none) ∧
    ∃ r, LeftReach m x r ∧ (m.nodes r).m_left = none ∧
      ∀ fuel, S.card ≤ fuel →
        minimum m fuel (some x) = some (some r) ∧
        (minimum m fuel (some x)).bind (minimum m fuel) = minimum m fuel (some x) ∧
        minimum_const m fuel (some x) = some (some r) := by
  refine ⟨fun fuel => ⟨rfl, rfl⟩, ?_⟩
  obtain ⟨r, hr⟩ := minimum_loop_terminates m S.card S x (le_refl _) hfin hacyc
  obtain ⟨hreach, hend⟩ := minimum_loop_spec m S.card x r hr
  refine ⟨r, hreach, hend, ?_⟩
  intro fuel hfuel
  have hpos : 0 < S.card := Finset.card_pos.mpr ⟨x, hfin x (LeftReach.refl x)⟩
  have h1 : minimum_loop m fuel x = some r := minimum_loop_mono m S.card fuel x r hr hfuel
  obtain ⟨j, hj⟩ : ∃ j, fuel = j + 1 := ⟨fuel - 1, by omega⟩
  have h2 : minimum_loop m fuel r = some r := by
    rw [hj]
    exact minimum_loop_at_end m j r hend
  refine ⟨?_, ?_, ?_⟩
  · simp [minimum, h1]
  · simp [minimum, h1, h2]
  · simp [minimum_const, minimum_const_loop_eq, h1]

/-- The instance of C7 on `Mem.sample`, from the root at 5: the leftmost
node is 4. -/
theorem minimum_returns_leftmost_witness :
    (∀ fuel, minimum Mem.sample fuel none = some none ∧
      minimum_const Mem.sample fuel none = some none) ∧
    ∃ r, LeftReach Mem.sample 5 r ∧ (Mem.sample.nodes r).m_left = none ∧
      ∀ fuel, ({4, 5, 6} : Finset Nat).card ≤ fuel →
        minimum Mem.sample fuel (some 5) = some (some r) ∧
        (minimum Mem.sample fuel (some 5)).bind (minimum Mem.sample fuel)
          = minimum Mem.sample fuel (some 5) ∧
        minimum_const Mem.sample fuel (some 5) = some (some r) :=
  minimum_returns_leftmost Mem.sample {4, 5, 6} 5 sample_LeftReach_in sample_LeftReach_acyclic

theorem sample_RightReach_leaf (c : Nat) (h : RightReach Mem.sample 6 c) : c = 6 := by
  cases h with
  | refl => rfl
  | step hl _ => simp [Mem.sample] at hl

theorem sample_RightReach_root (c : Nat) (h : RightReach Mem.sample 5 c) : c = 5 ∨ c = 6 := by
  cases h with
  | refl => exact Or.inl rfl
  | step hl h2 =>
    simp only [Mem.sample] at hl
    simp at hl
    subst hl
    exact Or.inr (sample_RightReach_leaf c h2)

theorem sample_RightReach_in (c : Nat) (h : RightReach Mem.sample 5 c) : c ∈ ({4, 5, 6} : Finset Nat) := by
  rcases sample_RightReach_root c h with h1 | h1 <;> subst h1 <;> decide

theorem sample_RightReach_acyclic (c d : Nat) (h : RightReach Mem.sample 5 c)
    (hl : (Mem.sample.nodes c).m_right = some d) : ¬ RightReach Mem.sample d c := by
  rcases sample_RightReach_root c h with h1 | h1
  · subst h1
    simp only [Mem.sample] at hl
    simp at hl
    subst hl
    intro h3
    have := sample_RightReach_leaf _ h3
    omega
  · subst h1
    simp [Mem.sample] at hl

/-- C8: `maximum(x)` returns null when `x` is null; for every non-null `x` that
roots a finite tree with no cycle along right links (the nodes reached from
`x` by right links lie in a finite set `S` of cells, and no right link leads
back to a node it was reached from) it terminates, with fuel `S.card`, and
returns the rightmost node of that subtree: the result `r` is reached from
`x` by following only right links, has a null right link, and
`maximum(maximum(x)) == maximum(x)`.  The const overload returns the same node. -/
theorem maximum_returns_rightmost (m : Mem) (S : Finset Nat) (x : Nat)
    (hfin : ∀ c, RightReach m x c → c ∈ S)
    (hacyc : ∀ c d, RightReach m x c → (m.nodes c).m_right = some d → ¬ RightReach m d c) :
    (∀ fuel, maximum m fuel none = some none ∧ maximum_const m fuel none = some none) ∧
    ∃ r, RightReach m x r ∧ (m.nodes r).m_right = none ∧
      ∀ fuel, S.card ≤ fuel →
        maximum m fuel (some x) = some (some r) ∧
        (maximum m fuel (some x)).bind (maximum m fuel) = maximum m fuel (some x) ∧
        maximum_const m fuel (some x) = some (some r) := by
  refine ⟨fun fuel => ⟨rfl, rfl⟩, ?_⟩
  obtain ⟨r, hr⟩ := maximum_loop_terminates m S.card S x (le_refl _) hfin hacyc
  obtain ⟨hreach, hend⟩ := maximum_loop_spec m S.card x r hr
  refine ⟨r, hreach, hend, ?_⟩
  intro fuel hfuel
  have hpos : 0 < S.card := Finset.card_pos.mpr ⟨x, hfin x (RightReach.refl x)⟩
  have h1 : maximum_loop m fuel x = some r := maximum_loop_mono m S.card fuel x r hr hfuel
  obtain ⟨j, hj⟩ : ∃ j, fuel = j + 1 := ⟨fuel - 1, by omega⟩
  have h2 : maximum_loop m fuel r = some r := by
    rw [hj]
    exact maximum_loop_at_end m j r hend
  refine ⟨?_, ?_, ?_⟩
  · simp [maximum, h1]
  · simp [maximum, h1, h2]
  · simp [maximum_const, maximum_const_loop_eq, h1]

/-- The instance of C8 on `Mem.sample`, from the root at 5: the rightmost
node is 6. -/
theorem maximum_returns_rightmost_witness :
    (∀ fuel, maximum Mem.sample fuel none = some none ∧
      maximum_const Mem.sample fuel none = some none) ∧
    ∃ r, RightReach Mem.sample 5 r ∧ (Mem.sample.nodes r).m_right = none ∧
      ∀ fuel, ({4, 5, 6} : Finset Nat).card ≤ fuel →
        maximum Mem.sample fuel (some 5) = some (some r) ∧
        (maximum Mem.sample fuel (some 5)).bind (maximum Mem.sample fuel)
          = maximum Mem.sample fuel (some 5) ∧
        maximum_const Mem.sample fuel (some 5) = some (some r) :=
  maximum_returns_rightmost Mem.sample {4, 5, 6} 5 sample_RightReach_in sample_RightReach_acyclic

/-! ## Search-tree ordering -/

theorem minimum_loop_tree {K : Type} [LinearOrder K] (key : Nat → K) (m : Mem) :
    ∀ (t : Shape) (x : Nat), IsTree m (some x) t → IsBST key t →
      ∃ lo, lo ∈ t.addrs ∧ minimum_loop m t.height x = some lo ∧
        ∀ b ∈ t.addrs, key lo ≤ key b := by
  intro t
  induction t with
  | nil =>
    intro x ht
    simp [IsTree] at ht
  | node l a r ihl _ =>
    intro x ht hb
    simp only [IsTree] at ht
    obtain ⟨rfl, h1, _⟩ := ht
    simp only [IsBST] at hb
    obtain ⟨hL, hR, bl, _⟩ := hb
    cases hl : (m.nodes x).m_left with
    | none =>
      rw [hl] at h1
      have hnil := h1.none_inv
      subst hnil
      refine ⟨x, by simp [Shape.addrs], minimum_loop_at_end m _ x hl, ?_⟩
      intro b hb
      simp only [Shape.addrs, List.nil_append, List.mem_cons] at hb
      rcases hb with rfl | hb
      · exact le_refl _
      · exact hR b hb
    | some c =>
      rw [hl] at h1
      obtain ⟨lo, hlo, hrun, hkeys⟩ := ihl c h1 bl
      refine ⟨lo, by simp [Shape.addrs, hlo], ?_, ?_⟩
      · simp only [Shape.height, minimum_loop, hl]
        exact minimum_loop_mono m _ _ c lo hrun (le_max_left _ _)
      · intro b hb
        simp only [Shape.addrs, List.mem_append, List.mem_cons] at hb
        rcases hb with hb | rfl | hb
        · exact hkeys b hb
        · exact hL lo hlo
        · exact le_trans (hL lo hlo) (hR b hb)

theorem maximum_loop_tree {K : Type} [LinearOrder K] (key : Nat → K) (m : Mem) :
    ∀ (t : Shape) (x : Nat), IsTree m (some x) t → IsBST key t →
      ∃ hi, hi ∈ t.addrs ∧ maximum_loop m t.height x = some hi ∧
        ∀ b ∈ t.addrs, key b ≤ key hi := by
  intro t
  induction t with
  | nil =>
    intro x ht
    simp [IsTree] at ht
  | node l a r _ ihr =>
    intro x ht hb
    simp only [IsTree] at ht
    obtain ⟨rfl, _, h2⟩ := ht
    simp only [IsBST] at hb
    obtain ⟨hL, hR, _, br⟩ := hb
    cases hl : (m.nodes x).m_right with
    | none =>
      rw [hl] at h2
      have hnil := h2.none_inv
      subst hnil
      refine ⟨x, by simp [Shape.addrs], maximum_loop_at_end m _ x hl, ?_⟩
      intro b hb
      simp only [Shape.addrs, List.mem_append, List.mem_cons, List.not_mem_nil, or_false] at hb
      rcases hb with hb | rfl
      · exact hL b hb
      · exact le_refl _
    | some c =>
      rw [hl] at h2
      obtain ⟨hi, hhi, hrun, hkeys⟩ := ihr c h2 br
      refine ⟨hi, by simp [Shape.addrs, hhi], ?_, ?_⟩
      · simp only [Shape.height, maximum_loop, hl]
        exact maximum_loop_mono m _ _ c hi hrun (le_max_right _ _)
      · intro b hb
        simp only [Shape.addrs, List.mem_append, List.mem_cons] at hb
        rcases hb with hb | rfl | hb
        · exact le_trans (hL b hb) (hR hi hhi)
        · exact hR hi hhi
        · exact hkeys b hb

/-- C9: the leftmost node is the minimum and the rightmost the maximum: for
every non-empty finite subtree `t` rooted at `x` that satisfies the
binary-search-tree ordering under a strict total order on the keys,
`minimum(x)` and `maximum(x)` return nodes `lo` and `hi` (with fuel the
height of the tree), the key of `lo` is less than or equal to every key
stored in the subtree and the key of `hi` is greater than or equal to every
key stored in the subtree. -/
theorem leftmost_least_rightmost_greatest {K : Type} [LinearOrder K] (key : Nat → K)
    (m : Mem) (x : Nat) (t : Shape) (ht : IsTree m (some x) t) (hbst : IsBST key t) :
    ∃ lo hi, lo ∈ t.addrs ∧ hi ∈ t.addrs ∧
      (∀ fuel, t.height ≤ fuel →
        minimum m fuel (some x) = some (some lo) ∧ maximum m fuel (some x) = some (some hi)) ∧
      ∀ b ∈ t.addrs, key lo ≤ key b ∧ key b ≤ key hi := by
  obtain ⟨lo, hlo, hmin, hle⟩ := minimum_loop_tree key m t x ht hbst
  obtain ⟨hi, hhi, hmax, hge⟩ := maximum_loop_tree key m t x ht hbst
  refine ⟨lo, hi, hlo, hhi, ?_, fun b hb => ⟨hle b hb, hge b hb⟩⟩
  intro fuel hfuel
  constructor
  · simp [minimum, minimum_loop_mono m _ fuel x lo hmin hfuel]
  · simp [maximum, maximum_loop_mono m _ fuel x hi hmax hfuel]

/-- The instance of C9 on `Mem.sample` with each node holding its own address
as key. -/
theorem leftmost_least_rightmost_greatest_witness :
    (IsTree Mem.sample (some 5) Shape.sample ∧ IsBST (fun a => a) Shape.sample) ∧
    ∃ lo hi, lo ∈ Shape.sample.addrs ∧ hi ∈ Shape.sample.addrs ∧
      (∀ fuel, Shape.sample.height ≤ fuel →
        minimum Mem.sample fuel (some 5) = some (some lo) ∧
        maximum Mem.sample fuel (some 5) = some (some hi)) ∧
      ∀ b ∈ Shape.sample.addrs, (fun a => a) lo ≤ (fun a => a) b ∧
        (fun a => a) b ≤ (fun a => a) hi :=
  have ht : IsTree Mem.sample (some 5) Shape.sample := by
    simp [IsTree, Shape.sample, Mem.sample]
  have hb : IsBST (fun a : Nat => a) Shape.sample := by
    simp [IsBST, Shape.sample, Shape.addrs]
  ⟨⟨ht, hb⟩, leftmost_least_rightmost_greatest (fun a => a) Mem.sample 5 Shape.sample ht hb⟩

/-! ## The node -/

/-- C10: a node is colored red when created: for every value `v`, a node
constructed from `v`, and a default-constructed node, has color red and null
parent, left and right links, and `__value()` returns `v` (the
value-initialised payload for the default-constructed node), the same object
that `__valptr()` points to; the const overloads agree. -/
theorem node_created_red {V : Type} [Inhabited V] (v : V) :
    ((rb_tree_node.ctor_value v).m_color = rb_tree_color.red ∧
      (rb_tree_node.ctor_value v).m_parent = none ∧
      (rb_tree_node.ctor_value v).m_left = none ∧
      (rb_tree_node.ctor_value v).m_right = none ∧
      (rb_tree_node.ctor_value v).__value = v ∧
      (rb_tree_node.ctor_value v).load (rb_tree_node.ctor_value v).__valptr = v ∧
      (rb_tree_node.ctor_value v).__value_const = v ∧
      (rb_tree_node.ctor_value v).load (rb_tree_node.ctor_value v).__valptr_const = v) ∧
    ((rb_tree_node.ctor : rb_tree_node V).m_color = rb_tree_color.red ∧
      (rb_tree_node.ctor : rb_tree_node V).m_parent = none ∧
      (rb_tree_node.ctor : rb_tree_node V).m_left = none ∧
      (rb_tree_node.ctor : rb_tree_node V).m_right = none ∧
      (rb_tree_node.ctor : rb_tree_node V).__value = default ∧
      (rb_tree_node.ctor : rb_tree_node V).load (rb_tree_node.ctor : rb_tree_node V).__valptr
        = (rb_tree_node.ctor : rb_tree_node V).__value) :=
  ⟨⟨rfl, rfl, rfl, rfl, rfl, rfl, rfl, rfl⟩, ⟨rfl, rfl, rfl, rfl, rfl, rfl⟩⟩

/-! ## The parent link of the empty header -/

/-- C11, refuted as stated: after default construction and after `__reset`
of the header at address 1 of `Mem.sample`, the parent link is not the
address of the header itself. -/
theorem empty_header_parent_not_self :
    ((ctor Mem.sample 1).nodes 1).m_parent ≠ some 1 ∧
    ((__reset Mem.sample 1).nodes 1).m_parent ≠ some 1 := by
  decide

/-- C11, amended: in the empty state the header's parent link is null, unlike
its left and right links, which point at the header itself: after default
construction or `__reset`, `m_header.m_parent == nullptr`, never
`&m_header`. -/
theorem empty_header_parent_null (m : Mem) (this : Nat) :
    (((ctor m this).nodes this).m_parent = none ∧
      ((ctor m this).nodes this).m_parent ≠ some this ∧
      ((ctor m this).nodes this).m_left = some this ∧
      ((ctor m this).nodes this).m_right = some this) ∧
    (((__reset m this).nodes this).m_parent = none ∧
      ((__reset m this).nodes this).m_parent ≠ some this ∧
      ((__reset m this).nodes this).m_left = some this ∧
      ((__reset m this).nodes this).m_right = some this) := by
  simp [ctor, __reset, Mem.set_parent, Mem.set_left, Mem.set_right, Mem.set_color]

/-! ## pair -/

/-- C12: `operator<` on pairs compares lexicographically: for all pairs `a`,
`b` whose component types are linearly ordered, `a < b` holds iff
`a.first < b.first`, or `a.first == b.first` and `a.second < b.second`. -/
theorem pair_lt_lexicographic {T1 T2 : Type} [LinearOrder T1] [LinearOrder T2]
    (a b : pair T1 T2) :
    pair.operator_lt a b = true ↔
      a.first < b.first ∨ (a.first = b.first ∧ a.second < b.second) := by
  unfold pair.operator_lt
  by_cases h1 : a.first < b.first
  · simp [h1]
  · by_cases h2 : b.first = a.first
    · simp [h2]
    · have h3 : ¬ a.first = b.first := fun h => h2 h.symm
      simp [h1, h2, h3]

/-- C13: the derived pair comparisons are consistent with `operator<` and
`operator==`: for all pairs `a`, `b` over any component types,
`(a > b) == (b < a)`, `(a <= b) == !(b < a)`, `(a >= b) == !(a < b)` and
`(a != b) == !(a == b)`; over component types with decidable equality
`a == b` iff both components are equal; and over linearly ordered components
`a <= b` iff `a < b` or `a == b`. -/
theorem pair_derived_comparisons :
    (∀ (T1 T2 : Type) [LT T1] [∀ x y : T1, Decidable (x < y)] [BEq T1] [BEq T2]
        [LT T2] [∀ x y : T2, Decidable (x < y)] (a b : pair T1 T2),
      pair.operator_gt a b = pair.operator_lt b a ∧
      pair.operator_le a b = !(pair.operator_lt b a) ∧
      pair.operator_ge a b = !(pair.operator_lt a b) ∧
      pair.operator_ne a b = !(pair.operator_eq a b)) ∧
    (∀ (T1 T2 : Type) [DecidableEq T1] [DecidableEq T2] (a b : pair T1 T2),
      pair.operator_eq a b = true ↔ (a.first = b.first ∧ a.second = b.second)) ∧
    (∀ (T1 T2 : Type) [LinearOrder T1] [LinearOrder T2] (a b : pair T1 T2),
      pair.operator_le a b = true ↔
        (pair.operator_lt a b = true ∨ pair.operator_eq a b = true)) := by
  refine ⟨?_, ?_, ?_⟩
  · intro T1 T2 _ _ _ _ _ _ a b
    exact ⟨rfl, rfl, rfl, rfl⟩
  · intro T1 T2 _ _ a b
    simp [pair.operator_eq]
  · intro T1 T2 _ _ a b
    unfold pair.operator_le pair.operator_lt pair.operator_eq
    rcases lt_trichotomy a.first b.first with h | h | h
    · have h1 : ¬ b.first < a.first := not_lt.mpr (le_of_lt h)
      have h2 : ¬ a.first = b.first := ne_of_lt h
      simp [h, h1, h2]
    · rcases lt_trichotomy a.second b.second with g | g | g
      · have g1 : ¬ b.second < a.second := not_lt.mpr (le_of_lt g)
        simp [h, g, g1]
      · simp [h, g]
      · have g1 : ¬ a.second < b.second := not_lt.mpr (le_of_lt g)
        have g2 : ¬ a.second = b.second := (ne_of_lt g).symm
        simp [h, g, g1, g2]
    · have h1 : ¬ a.first < b.first := not_lt.mpr (le_of_lt h)
      have h2 : ¬ a.first = b.first := (ne_of_lt h).symm
      have h3 : ¬ b.first = a.first := ne_of_lt h
      simp [h, h1, h2, h3]

/-- The instance of C13 on the pairs `(1, 5)` and `(1, 7)` of naturals. -/
theorem pair_derived_comparisons_witness :
    (pair.operator_gt (pair.mk 1 5) (pair.mk 1 7) = pair.operator_lt (pair.mk 1 7) (pair.mk 1 5) ∧
      pair.operator_le (pair.mk 1 5) (pair.mk 1 7)
        = !(pair.operator_lt (pair.mk 1 7) (pair.mk 1 5)) ∧
      pair.operator_ge (pair.mk 1 5) (pair.mk 1 7)
        = !(pair.operator_lt (pair.mk 1 5) (pair.mk 1 7)) ∧
      pair.operator_ne (pair.mk 1 5) (pair.mk 1 7)
        = !(pair.operator_eq (pair.mk 1 5) (pair.mk 1 7))) ∧
    (pair.operator_le (pair.mk 1 5) (pair.mk 1 7) = true ↔
      (pair.operator_lt (pair.mk 1 5) (pair.mk 1 7) = true ∨
        pair.operator_eq (pair.mk 1 5) (pair.mk 1 7) = true)) :=
  ⟨pair_derived_comparisons.1 Nat Nat (pair.mk 1 5) (pair.mk 1 7),
    pair_derived_comparisons.2.2 Nat Nat (pair.mk 1 5) (pair.mk 1 7)⟩

/-! ## reverse_iterator -/

theorem pointer_ops_bidirectional {E : Type} (a : List E) : (pointer_ops a).Bidirectional := by
  constructor <;> intro i <;> simp [pointer_ops]

theorem pointer_ops_randomAccess {E : Type} (a : List E) : (pointer_ops a).RandomAccess := by
  refine ⟨fun i n => rfl, fun i n => rfl, fun i n => ?_⟩
  simp [pointer_ops]

/-- C14, on the code: the call `make_reverse_iterator(x)` is ambiguous
between the two overloads, which have the same parameter type, and runs
none.  The overload taking `_Iter`, selected by the type of a function
pointer, returns a reverse iterator with `base() == x`, and dereferencing it
yields what dereferencing `--x` yields, the element before the one `x`
points at; the overload taking `const _Iter` returns a reverse iterator over
the constant `x`.  For the pointer `x` at index 1 of the array
`{10, 20, 30}`, `*x` is 20 and dereferencing the reverse iterator the first
overload returns is 10. -/
theorem make_reverse_iterator_deref :
    make_reverse_iterator_call = none ∧
    (∀ (I E : Type) (ops : iterator_ops I E) (x : I),
      (make_reverse_iterator x).base = x ∧
      (make_reverse_iterator x).operator_deref ops = ops.deref (ops.dec x)) ∧
    (∀ (I : Type) (x : I), (make_reverse_iterator_const x).base = { value := x }) ∧
    (pointer_ops [10, 20, 30]).deref 1 = some 20 ∧
    (make_reverse_iterator (1 : Int)).operator_deref (pointer_ops [10, 20, 30]) = some 10 :=
  ⟨rfl, fun _ _ _ _ => ⟨rfl, rfl⟩, fun _ _ => rfl, by decide, by decide⟩

/-- C15: incrementing a reverse iterator steps its base backwards and
decrementing steps it forwards: `++r` moves `r.base()` back by one and
returns the updated iterator, `r++` returns a copy of the iterator before
the step and moves `r.base()` back by one, `--r` and `r--` are symmetric with
the base moving forward by one; hence, the base being a bidirectional
iterator, `--(++r) == r` and `++(--r) == r` for every `r`. -/
theorem reverse_iterator_inc_dec {I E : Type} [DecidableEq I] (ops : iterator_ops I E)
    (hbi : ops.Bidirectional) (r : reverse_iterator I) :
    (r.operator_inc ops).base = ops.dec r.base ∧
    (r.operator_inc_post ops).1 = r ∧ (r.operator_inc_post ops).2.base = ops.dec r.base ∧
    (r.operator_dec ops).base = ops.inc r.base ∧
    (r.operator_dec_post ops).1 = r ∧ (r.operator_dec_post ops).2.base = ops.inc r.base ∧
    ((r.operator_inc ops).operator_dec ops).operator_eq r = true ∧
    ((r.operator_dec ops).operator_inc ops).operator_eq r = true := by
  refine ⟨rfl, rfl, rfl, rfl, rfl, rfl, ?_, ?_⟩
  · simp [reverse_iterator.operator_eq, reverse_iterator.operator_dec,
      reverse_iterator.operator_inc, reverse_iterator.base, hbi.1]
  · simp [reverse_iterator.operator_eq, reverse_iterator.operator_dec,
      reverse_iterator.operator_inc, reverse_iterator.base, hbi.2]

/-- The instance of C15 on the reverse iterator whose base is the pointer at
index 2 of the array `{10, 20, 30}`. -/
theorem reverse_iterator_inc_dec_witness :
    (pointer_ops [10, 20, 30]).Bidirectional ∧
    (((reverse_iterator.ctor (2 : Int)).operator_inc (pointer_ops [10, 20, 30])).base
        = (pointer_ops [10, 20, 30]).dec (reverse_iterator.ctor (2 : Int)).base ∧
      ((reverse_iterator.ctor (2 : Int)).operator_inc_post (pointer_ops [10, 20, 30])).1
        = reverse_iterator.ctor (2 : Int) ∧
      ((reverse_iterator.ctor (2 : Int)).operator_inc_post (pointer_ops [10, 20, 30])).2.base
        = (pointer_ops [10, 20, 30]).dec (reverse_iterator.ctor (2 : Int)).base ∧
      ((reverse_iterator.ctor (2 : Int)).operator_dec (pointer_ops [10, 20, 30])).base
        = (pointer_ops [10, 20, 30]).inc (reverse_iterator.ctor (2 : Int)).base ∧
      ((reverse_iterator.ctor (2 : Int)).operator_dec_post (pointer_ops [10, 20, 30])).1
        = reverse_iterator.ctor (2 : Int) ∧
      ((reverse_iterator.ctor (2 : Int)).operator_dec_post (pointer_ops [10, 20, 30])).2.base
        = (pointer_ops [10, 20, 30]).inc (reverse_iterator.ctor (2 : Int)).base ∧
      (((reverse_iterator.ctor (2 : Int)).operator_inc (pointer_ops [10, 20, 30])).operator_dec
        (pointer_ops [10, 20, 30])).operator_eq (reverse_iterator.ctor (2 : Int)) = true ∧
      (((reverse_iterator.ctor (2 : Int)).operator_dec (pointer_ops [10, 20, 30])).operator_inc
        (pointer_ops [10, 20, 30])).operator_eq (reverse_iterator.ctor (2 : Int)) = true) :=
  ⟨pointer_ops_bidirectional _,
    reverse_iterator_inc_dec (pointer_ops [10, 20, 30]) (pointer_ops_bidirectional _)
      (reverse_iterator.ctor (2 : Int))⟩

/-- C16: reverse-iterator arithmetic moves the base the opposite way: for
every reverse iterator `r` over a random-access base and every `n`,
`(r + n).base() == r.base() - n` and `(r - n).base() == r.base() + n`,
`r += n` and `r -= n` produce the same iterators as `r + n` and `r - n`, the
member and the free `operator+` and `operator-` agree, and
`(r + n) - n == r`. -/
theorem reverse_iterator_arithmetic {I E : Type} [DecidableEq I] (ops : iterator_ops I E)
    (hra : ops.RandomAccess) (r : reverse_iterator I) (n : Int) :
    (r.operator_plus ops n).base = ops.sub r.base n ∧
    (r.operator_minus ops n).base = ops.add r.base n ∧
    r.operator_plus_assign ops n = r.operator_plus ops n ∧
    r.operator_minus_assign ops n = r.operator_minus ops n ∧
    reverse_iterator.free_operator_plus ops r n = r.operator_plus ops n ∧
    reverse_iterator.free_operator_minus ops r n = r.operator_minus ops n ∧
    ((r.operator_plus ops n).operator_minus ops n).operator_eq r = true := by
  refine ⟨rfl, rfl, ?_, ?_, rfl, rfl, ?_⟩
  · simp [reverse_iterator.operator_plus_assign, reverse_iterator.operator_plus,
      reverse_iterator.ctor, hra.1, hra.2.1]
  · simp [reverse_iterator.operator_minus_assign, reverse_iterator.operator_minus,
      reverse_iterator.ctor, hra.1, hra.2.1]
  · simp [reverse_iterator.operator_eq, reverse_iterator.operator_plus,
      reverse_iterator.operator_minus, reverse_iterator.ctor, reverse_iterator.base, hra.2.2]

/-- The instance of C16 on the reverse iterator whose base is the pointer at
index 2 of the array `{10, 20, 30}`, with `n = 1`. -/
theorem reverse_iterator_arithmetic_witness :
    (pointer_ops [10, 20, 30]).RandomAccess ∧
    (((reverse_iterator.ctor (2 : Int)).operator_plus (pointer_ops [10, 20, 30]) 1).base
        = (pointer_ops [10, 20, 30]).sub (reverse_iterator.ctor (2 : Int)).base 1 ∧
      ((reverse_iterator.ctor (2 : Int)).operator_minus (pointer_ops [10, 20, 30]) 1).base
        = (pointer_ops [10, 20, 30]).add (reverse_iterator.ctor (2 : Int)).base 1 ∧
      (reverse_iterator.ctor (2 : Int)).operator_plus_assign (pointer_ops [10, 20, 30]) 1
        = (reverse_iterator.ctor (2 : Int)).operator_plus (pointer_ops [10, 20, 30]) 1 ∧
      (reverse_iterator.ctor (2 : Int)).operator_minus_assign (pointer_ops [10, 20, 30]) 1
        = (reverse_iterator.ctor (2 : Int)).operator_minus (pointer_ops [10, 20, 30]) 1 ∧
      reverse_iterator.free_operator_plus (pointer_ops [10, 20, 30])
          (reverse_iterator.ctor (2 : Int)) 1
        = (reverse_iterator.ctor (2 : Int)).operator_plus (pointer_ops [10, 20, 30]) 1 ∧
      reverse_iterator.free_operator_minus (pointer_ops [10, 20, 30])
          (reverse_iterator.ctor (2 : Int)) 1
        = (reverse_iterator.ctor (2 : Int)).operator_minus (pointer_ops [10, 20, 30]) 1 ∧
      (((reverse_iterator.ctor (2 : Int)).operator_plus (pointer_ops [10, 20, 30]) 1).operator_minus
        (pointer_ops [10, 20, 30]) 1).operator_eq (reverse_iterator.ctor (2 : Int)) = true) :=
  ⟨pointer_ops_randomAccess _,
    reverse_iterator_arithmetic (pointer_ops [10, 20, 30]) (pointer_ops_randomAccess _)
      (reverse_iterator.ctor (2 : Int)) 1⟩

/-! ## The tree engine: in-order keys -/

section tree_keys

variable {K : Type}

@[simp] theorem subtree.set_color_node (c d : rb_tree_color) (l r : subtree K) (k : K) :
    (subtree.node d l k r).set_color c = subtree.node c l k r := rfl

@[simp] theorem subtree.keys_set_color (c : rb_tree_color) (t : subtree K) :
    (t.set_color c).keys = t.keys := by
  cases t <;> rfl

@[simp] theorem subtree.keys_rotate_left (t : subtree K) : t.rotate_left.keys = t.keys := by
  cases t with
  | nil => rfl
  | node c a x r =>
    cases r with
    | nil => rfl
    | node d b y e => simp [subtree.rotate_left, subtree.keys]

@[simp] theorem subtree.keys_rotate_right (t : subtree K) : t.rotate_right.keys = t.keys := by
  cases t with
  | nil => rfl
  | node c l y e =>
    cases l with
    | nil => rfl
    | node d a x b => simp [subtree.rotate_right, subtree.keys]

theorem keys_plug (up : List (parent_step K)) :
    ∀ t : subtree K, (plug t up).keys = keys_before up ++ t.keys ++ keys_after up := by
  induction up with
  | nil => intro t; simp [plug, keys_before, keys_after]
  | cons p up ih =>
    intro t
    cases p with
    | left c k r => simp [plug, ih, parent_step.attach, subtree.keys, keys_before, keys_after]
    | right c l k => simp [plug, ih, parent_step.attach, subtree.keys, keys_before, keys_after]

theorem keys_insert_fixup :
    ∀ (n : Nat) (up : List (parent_step K)) (x : subtree K), up.length ≤ n →
      (insert_fixup x up).keys = keys_before up ++ x.keys ++ keys_after up := by
  intro n
  induction n using Nat.strong_induction_on with
  | _ n ih =>
    intro up x hn
    match up, hn with
    | [], _ => simp [insert_fixup, keys_before, keys_after]
    | [p], _ => simp [insert_fixup, keys_plug]
    | p :: g :: up, hn =>
      simp only [List.length_cons] at hn
      unfold insert_fixup
      split
      · simp [keys_plug]
      · split
        · rw [ih (n - 2) (by omega) up _ (by omega)]
          cases p <;> cases g <;>
            simp [parent_step.attach, parent_step.set_sibling, parent_step.sibling,
              subtree.keys, keys_before, keys_after]
        · cases p <;> cases g <;>
            simp [keys_plug, parent_step.attach, subtree.keys, keys_before, keys_after]

end tree_keys

/-! ## The tree engine: invariants 3 and 4 under insertion -/

section tree_balance

variable {K : Type}

theorem color_cases (c : rb_tree_color) : c = .red ∨ c = .black := by
  cases c
  · exact Or.inl rfl
  · exact Or.inr rfl

theorem color_ne_black {c : rb_tree_color} (h : ¬ c = .black) : c = .red := by
  cases c
  · rfl
  · exact absurd rfl h

theorem color_ne_red {c : rb_tree_color} (h : ¬ c = .red) : c = .black := by
  cases c
  · exact absurd rfl h
  · rfl

@[simp] theorem subtree.color_node (c : rb_tree_color) (l r : subtree K) (k : K) :
    (subtree.node c l k r).color = c := rfl

@[simp] theorem subtree.color_nil : (subtree.nil : subtree K).color = .black := rfl

@[simp] theorem subtree.black_height_nil (n : Nat) :
    (subtree.nil : subtree K).black_height n ↔ n = 0 := Iff.rfl

@[simp] theorem subtree.black_height_red (l r : subtree K) (k : K) (n : Nat) :
    (subtree.node .red l k r).black_height n ↔ l.black_height n ∧ r.black_height n := by
  simp [subtree.black_height]

@[simp] theorem subtree.black_height_black (l r : subtree K) (k : K) (n : Nat) :
    (subtree.node .black l k r).black_height n ↔
      ∃ m, n = m + 1 ∧ l.black_height m ∧ r.black_height m := by
  simp [subtree.black_height]

@[simp] theorem subtree.no_red_red_red (l r : subtree K) (k : K) :
    (subtree.node .red l k r).no_red_red ↔
      (l.color = .black ∧ r.color = .black) ∧ l.no_red_red ∧ r.no_red_red := by
  simp [subtree.no_red_red]

@[simp] theorem subtree.no_red_red_black (l r : subtree K) (k : K) :
    (subtree.node .black l k r).no_red_red ↔ l.no_red_red ∧ r.no_red_red := by
  simp [subtree.no_red_red]

theorem subtree.red_is_node (x : subtree K) (h : x.color = .red) :
    ∃ l k r, x = .node .red l k r := by
  cases x with
  | nil => simp [subtree.color] at h
  | node c l k r =>
    simp only [subtree.color] at h
    subst h
    exact ⟨l, k, r, rfl⟩

theorem subtree.no_red_red_blacken (t : subtree K) (h : t.no_red_red) :
    (t.set_color .black).no_red_red := by
  cases t with
  | nil => exact h
  | node c l k r =>
    simp only [subtree.no_red_red] at h
    simp [h.2.1, h.2.2]

theorem subtree.black_height_blacken (t : subtree K) (n : Nat) (h : t.black_height n) :
    ∃ m, (t.set_color .black).black_height m := by
  cases t with
  | nil => exact ⟨n, h⟩
  | node c l k r =>
    rcases color_cases c with rfl | rfl
    · simp only [subtree.black_height_red] at h
      exact ⟨n + 1, by simp [h.1, h.2]⟩
    · exact ⟨n, h⟩

theorem attach_ok (p : parent_step K) (up : List (parent_step K)) (t : subtree K) (h : Nat)
    (hup : steps_ok (p :: up) h) (hbh : t.black_height h) (hnr : t.no_red_red)
    (hc : t.color = .red → p.color = .black) :
    (p.attach t).black_height (if p.color = .black then h + 1 else h) ∧
      (p.attach t).no_red_red ∧ ((p.attach t).color = .red → parent_black up) := by
  obtain ⟨h1, h2, h3, _⟩ := hup
  cases p with
  | left c k r =>
    simp only [parent_step.sibling, parent_step.color] at h1 h2 h3 hc
    rcases color_cases c with rfl | rfl
    · have htc : t.color = .black := by
        rcases color_cases t.color with h5 | h5
        · exact absurd (hc h5) (by simp)
        · exact h5
      simp [parent_step.attach, parent_step.color, hbh, h1, hnr, h2, htc,
        (h3 rfl).1, (h3 rfl).2]
    · simp [parent_step.attach, parent_step.color, hbh, h1, hnr, h2]
  | right c l k =>
    simp only [parent_step.sibling, parent_step.color] at h1 h2 h3 hc
    rcases color_cases c with rfl | rfl
    · have htc : t.color = .black := by
        rcases color_cases t.color with h5 | h5
        · exact absurd (hc h5) (by simp)
        · exact h5
      simp [parent_step.attach, parent_step.color, hbh, h1, hnr, h2, htc,
        (h3 rfl).1, (h3 rfl).2]
    · simp [parent_step.attach, parent_step.color, hbh, h1, hnr, h2]

theorem plug_ok (up : List (parent_step K)) :
    ∀ (t : subtree K) (h : Nat), steps_ok up h → t.black_height h → t.no_red_red →
      (t.color = .red → parent_black up) →
      ∃ n, (plug t up).black_height n ∧ (plug t up).no_red_red := by
  induction up with
  | nil => intro t h _ hbh hnr _; exact ⟨h, hbh, hnr⟩
  | cons p up ih =>
    intro t h hup hbh hnr hc
    obtain ⟨a1, a2, a3⟩ := attach_ok p up t h hup hbh hnr hc
    exact ih (p.attach t) _ hup.2.2.2 a1 a2 a3

end tree_balance

section tree_balance_insert

variable {K : Type}

theorem locate_equal_ok [LinearOrder K] (k : K) :
    ∀ (t : subtree K) (up : List (parent_step K)) (h : Nat), steps_ok up h →
      t.black_height h → t.no_red_red → (t.color = .red → parent_black up) →
      steps_ok (locate_equal k t up) 0 := by
  intro t
  induction t with
  | nil =>
    intro up h hup hbh _ _
    simp only [subtree.black_height_nil] at hbh
    subst hbh
    exact hup
  | node c l x r ihl ihr =>
    intro up h hup hbh hnr hc
    rcases color_cases c with rfl | rfl
    · simp only [subtree.black_height_red, subtree.no_red_red_red, subtree.color_node,
        forall_const] at hbh hnr hc
      simp only [locate_equal]
      split
      · exact ihl _ h ⟨hbh.2, hnr.2.2, fun _ => ⟨hnr.1.2, hc⟩, by simpa [parent_step.color] using hup⟩
          hbh.1 hnr.2.1 (fun h5 => absurd (hnr.1.1 ▸ h5) (by simp))
      · exact ihr _ h ⟨hbh.1, hnr.2.1, fun _ => ⟨hnr.1.1, hc⟩, by simpa [parent_step.color] using hup⟩
          hbh.2 hnr.2.2 (fun h5 => absurd (hnr.1.2 ▸ h5) (by simp))
    · simp only [subtree.black_height_black, subtree.no_red_red_black] at hbh hnr
      obtain ⟨m, rfl, hl, hr⟩ := hbh
      simp only [locate_equal]
      split
      · exact ihl _ m ⟨hr, hnr.2, fun h5 => absurd h5 (by simp [parent_step.color]),
          by simpa [parent_step.color] using hup⟩ hl hnr.1 (fun _ => rfl)
      · exact ihr _ m ⟨hl, hnr.1, fun h5 => absurd h5 (by simp [parent_step.color]),
          by simpa [parent_step.color] using hup⟩ hr hnr.2 (fun _ => rfl)

theorem locate_unique_ok [LinearOrder K] (k : K) :
    ∀ (t : subtree K) (up up1 : List (parent_step K)) (h : Nat),
      locate_unique k t up = some up1 → steps_ok up h →
      t.black_height h → t.no_red_red → (t.color = .red → parent_black up) →
      steps_ok up1 0 := by
  intro t
  induction t with
  | nil =>
    intro up up1 h hloc hup hbh _ _
    simp only [locate_unique, Option.some.injEq] at hloc
    subst hloc
    simp only [subtree.black_height_nil] at hbh
    subst hbh
    exact hup
  | node c l x r ihl ihr =>
    intro up up1 h hloc hup hbh hnr hc
    simp only [locate_unique] at hloc
    rcases color_cases c with rfl | rfl
    · simp only [subtree.black_height_red, subtree.no_red_red_red, subtree.color_node,
        forall_const] at hbh hnr hc
      split at hloc
      · exact ihl _ _ h hloc
          ⟨hbh.2, hnr.2.2, fun _ => ⟨hnr.1.2, hc⟩, by simpa [parent_step.color] using hup⟩
          hbh.1 hnr.2.1 (fun h5 => absurd (hnr.1.1 ▸ h5) (by simp))
      · split at hloc
        · exact ihr _ _ h hloc
            ⟨hbh.1, hnr.2.1, fun _ => ⟨hnr.1.1, hc⟩, by simpa [parent_step.color] using hup⟩
            hbh.2 hnr.2.2 (fun h5 => absurd (hnr.1.2 ▸ h5) (by simp))
        · exact absurd hloc (by simp)
    · simp only [subtree.black_height_black, subtree.no_red_red_black] at hbh hnr
      obtain ⟨m, rfl, hl, hr⟩ := hbh
      split at hloc
      · exact ihl _ _ m hloc ⟨hr, hnr.2, fun h5 => absurd h5 (by simp [parent_step.color]),
          by simpa [parent_step.color] using hup⟩ hl hnr.1 (fun _ => rfl)
      · split at hloc
        · exact ihr _ _ m hloc ⟨hl, hnr.1, fun h5 => absurd h5 (by simp [parent_step.color]),
            by simpa [parent_step.color] using hup⟩ hr hnr.2 (fun _ => rfl)
        · exact absurd hloc (by simp)

end tree_balance_insert

section tree_balance_fixup

variable {K : Type}

theorem insert_fixup_ok :
    ∀ (n : Nat) (up : List (parent_step K)) (x : subtree K) (h : Nat), up.length ≤ n →
      steps_ok up h → x.black_height h → x.color = .red → x.no_red_red →
      ∃ m, (insert_fixup x up).black_height m ∧
        ((insert_fixup x up).set_color .black).no_red_red := by
  intro n
  induction n using Nat.strong_induction_on with
  | _ n ih =>
    intro up x h hn hup hbh hred hnr
    match up, hn, hup with
    | [], _, _ => exact ⟨h, hbh, subtree.no_red_red_blacken x hnr⟩
    | [p], _, hup =>
      obtain ⟨m, h1, h2⟩ : ∃ m, (p.attach x).black_height m ∧
          ((p.attach x).set_color .black).no_red_red := by
        obtain ⟨a1, a2, _, _⟩ := hup
        cases p with
        | left c k r =>
          rcases color_cases c with rfl | rfl
          · exact ⟨h, by simpa [parent_step.attach] using ⟨hbh, a1⟩,
              by simpa [parent_step.attach] using ⟨hnr, a2⟩⟩
          · exact ⟨h + 1, by simpa [parent_step.attach] using ⟨hbh, a1⟩,
              by simpa [parent_step.attach] using ⟨hnr, a2⟩⟩
        | right c l k =>
          rcases color_cases c with rfl | rfl
          · exact ⟨h, by simpa [parent_step.attach] using ⟨a1, hbh⟩,
              by simpa [parent_step.attach] using ⟨a2, hnr⟩⟩
          · exact ⟨h + 1, by simpa [parent_step.attach] using ⟨a1, hbh⟩,
              by simpa [parent_step.attach] using ⟨a2, hnr⟩⟩
      exact ⟨m, by simpa [insert_fixup, plug] using h1, by simpa [insert_fixup, plug] using h2⟩
    | p :: g :: up, hn, hup =>
      simp only [List.length_cons] at hn
      unfold insert_fixup
      split
      · rename_i hpc
        obtain ⟨m, h1, h2⟩ := plug_ok (p :: g :: up) x h hup hbh hnr (fun _ => hpc)
        exact ⟨m, h1, subtree.no_red_red_blacken _ h2⟩
      · rename_i hpc
        have hpr : p.color = .red := color_ne_black hpc
        obtain ⟨p1, p2, p3, p4⟩ := hup
        obtain ⟨p5, p6⟩ := p3 hpr
        simp only [hpc, if_false] at p4
        obtain ⟨g1, g2, _, g4⟩ := p4
        simp only [parent_black] at p6
        simp only [p6, if_true] at g4
        obtain ⟨xl, xk, xr, rfl⟩ := subtree.red_is_node x hred
        simp only [subtree.black_height_red, subtree.no_red_red_red] at hbh hnr
        split
        · rename_i hur
          obtain ⟨ul, uk, ur, hu⟩ := subtree.red_is_node _ hur
          rw [hu] at g1 g2
          simp only [subtree.black_height_red, subtree.no_red_red_red] at g1 g2
          apply ih (n - 2) (by omega) up _ (h + 1) (by omega) g4
          · cases p <;> cases g <;>
              simp_all [parent_step.attach, parent_step.set_sibling, parent_step.sibling,
                parent_step.color]
          · cases p <;> cases g <;>
              simp [parent_step.attach, parent_step.set_sibling, parent_step.sibling]
          · cases p <;> cases g <;>
              simp_all [parent_step.attach, parent_step.set_sibling, parent_step.sibling,
                parent_step.color]
        · rename_i hur
          have hub : g.sibling.color = .black := color_ne_red hur
          have key : ∀ t : subtree K, t.black_height (h + 1) → t.no_red_red →
              t.color = .black →
              ∃ m, (plug t up).black_height m ∧ ((plug t up).set_color .black).no_red_red := by
            intro t t1 t2 t3
            obtain ⟨m, h1, h2⟩ := plug_ok up t (h + 1) g4 t1 t2
              (fun h5 => absurd (t3 ▸ h5) (by simp))
            exact ⟨m, h1, subtree.no_red_red_blacken _ h2⟩
          cases p <;> cases g <;> apply key <;>
            simp_all [parent_step.attach, parent_step.sibling, parent_step.color,
              subtree.rotate_left, subtree.rotate_right]

end tree_balance_fixup

section tree_balance_ops

variable {K : Type}

theorem insert_at_balanced (t : rb_tree K) (k : K) (up : List (parent_step K))
    (hup : steps_ok up 0) :
    rb_tree.balanced
      { root := (insert_fixup (.node .red .nil k .nil) up).set_color .black,
        node_count := t.node_count + 1 } := by
  obtain ⟨m, h1, h2⟩ := insert_fixup_ok up.length up (.node .red .nil k .nil) 0 (le_refl _) hup
    (by simp) rfl (by simp [subtree.no_red_red])
  exact ⟨h2, subtree.black_height_blacken _ m h1⟩

theorem insert_equal_balanced [LinearOrder K] (t : rb_tree K) (k : K) (ht : t.balanced) :
    (t.insert_equal k).balanced := by
  obtain ⟨h1, n, h2⟩ := ht
  exact insert_at_balanced t k _
    (locate_equal_ok k t.root [] n trivial h2 h1 (fun _ => trivial))

theorem insert_unique_balanced [LinearOrder K] (t : rb_tree K) (k : K) (ht : t.balanced) :
    (t.insert_unique k).1.balanced := by
  unfold rb_tree.insert_unique
  cases h : locate_unique k t.root [] with
  | none => exact ht
  | some up =>
    obtain ⟨h1, n, h2⟩ := ht
    exact insert_at_balanced t k up
      (locate_unique_ok k t.root [] up n h trivial h2 h1 (fun _ => trivial))

theorem inserts_run_balanced [LinearOrder K] (ops : List (tree_op K)) :
    ∀ t : rb_tree K, t.balanced → (∀ op ∈ ops, op.inserts = true) →
      ∃ t1, tree_run ops t = some t1 ∧ t1.balanced := by
  induction ops with
  | nil => intro t ht _; exact ⟨t, rfl, ht⟩
  | cons op ops ih =>
    intro t ht hins
    have hrest : ∀ o ∈ ops, o.inserts = true := fun o ho => hins o (List.mem_cons_of_mem _ ho)
    cases op with
    | insert_unique k =>
      obtain ⟨t1, h1, h2⟩ := ih _ (insert_unique_balanced t k ht) hrest
      exact ⟨t1, by simpa [tree_run, tree_apply] using h1, h2⟩
    | insert_equal k =>
      obtain ⟨t1, h1, h2⟩ := ih _ (insert_equal_balanced t k ht) hrest
      exact ⟨t1, by simpa [tree_run, tree_apply] using h1, h2⟩
    | erase i =>
      have := hins (.erase i) (List.mem_cons_self _ _)
      simp [tree_op.inserts] at this

theorem black_counts_of_height :
    ∀ (t : subtree K) (n : Nat), t.black_height n → ∀ a ∈ t.black_counts, a = n := by
  intro t
  induction t with
  | nil =>
    intro n h a ha
    simp only [subtree.black_height_nil] at h
    simp only [subtree.black_counts, List.mem_singleton] at ha
    omega
  | node c l k r ihl ihr =>
    intro n h a ha
    rcases color_cases c with rfl | rfl
    · simp only [subtree.black_height_red] at h
      simp only [subtree.black_counts, List.mem_map, List.mem_append] at ha
      obtain ⟨b, hb, rfl⟩ := ha
      rcases hb with hb | hb
      · simpa using ihl n h.1 b hb
      · simpa using ihr n h.2 b hb
    · simp only [subtree.black_height_black] at h
      obtain ⟨m, rfl, hl, hr⟩ := h
      simp only [subtree.black_counts, List.mem_map, List.mem_append] at ha
      obtain ⟨b, hb, rfl⟩ := ha
      rcases hb with hb | hb
      · simpa using ihl m hl b hb
      · simpa using ihr m hr b hb

theorem uniform_black_of_height :
    ∀ (t : subtree K) (n : Nat), t.black_height n → t.uniform_black := by
  intro t
  induction t with
  | nil => intro n _; trivial
  | node c l k r ihl ihr =>
    intro n h
    refine ⟨?_, ?_, ?_⟩
    · intro a ha b hb
      rw [black_counts_of_height _ n h a ha, black_counts_of_height _ n h b hb]
    · rcases color_cases c with rfl | rfl
      · simp only [subtree.black_height_red] at h
        exact ihl n h.1
      · simp only [subtree.black_height_black] at h
        obtain ⟨m, _, hl, _⟩ := h
        exact ihl m hl
    · rcases color_cases c with rfl | rfl
      · simp only [subtree.black_height_red] at h
        exact ihr n h.2
      · simp only [subtree.black_height_black] at h
        obtain ⟨m, _, _, hr⟩ := h
        exact ihr m hr

theorem empty_balanced : (rb_tree.empty : rb_tree K).balanced :=
  ⟨trivial, 0, rfl⟩

end tree_balance_ops

/-- C17: for all sequences of inserts (`insert_unique` and `insert_equal`)
into an initially empty tree, after each insert, that is after every initial
part of the sequence, the tree is there and satisfies invariant 3 (no red
node has a red child) and invariant 4 (every path from a node to a
descendant absent-child position passes through the same number of black
nodes). -/
theorem inserts_keep_invariants {K : Type} [LinearOrder K] (ops : List (tree_op K))
    (hins : ∀ op ∈ ops, op.inserts = true) (n : Nat) :
    ∃ t, tree_run (ops.take n) rb_tree.empty = some t ∧
      t.root.no_red_red ∧ t.root.uniform_black := by
  obtain ⟨t, h1, h2, m, h3⟩ := inserts_run_balanced (ops.take n) rb_tree.empty empty_balanced
    (fun op hop => hins op (List.mem_of_mem_take hop))
  exact ⟨t, h1, h2, uniform_black_of_height _ m h3⟩

/-- The instance of C17 on the inserts of 10, 20, 30, 25, 27 in this order,
after all five. -/
theorem inserts_keep_invariants_witness :
    (∀ op ∈ ([.insert_unique 10, .insert_equal 20, .insert_unique 30, .insert_equal 25,
      .insert_unique 27] : List (tree_op Nat)), op.inserts = true) ∧
    ∃ t, tree_run (([.insert_unique 10, .insert_equal 20, .insert_unique 30, .insert_equal 25,
        .insert_unique 27] : List (tree_op Nat)).take 5) rb_tree.empty = some t ∧
      t.root.no_red_red ∧ t.root.uniform_black :=
  ⟨by decide, inserts_keep_invariants _ (by decide) 5⟩

section tree_keys_erase

variable {K : Type}

theorem keys_delete_far_red_left (x : subtree K) (pc : rb_tree_color) (pk : K) (w : subtree K) :
    (delete_far_red_left x pc pk w).keys = x.keys ++ pk :: w.keys := by
  cases w <;> simp [delete_far_red_left, subtree.keys]

theorem keys_delete_far_red_right (x : subtree K) (pc : rb_tree_color) (pk : K)
    (w : subtree K) : (delete_far_red_right x pc pk w).keys = w.keys ++ pk :: x.keys := by
  cases w <;> simp [delete_far_red_right, subtree.keys]

theorem keys_delete_step_left (x : subtree K) (pc : rb_tree_color) (pk : K) (w : subtree K) :
    (delete_step_left x pc pk w).1.keys = x.keys ++ pk :: w.keys := by
  cases w with
  | nil => simp [delete_step_left, subtree.keys]
  | node wc wl wk wr =>
    simp only [delete_step_left]
    split_ifs <;> simp [keys_delete_far_red_left, subtree.keys]

theorem keys_delete_step_right (x : subtree K) (pc : rb_tree_color) (pk : K) (w : subtree K) :
    (delete_step_right x pc pk w).1.keys = w.keys ++ pk :: x.keys := by
  cases w with
  | nil => simp [delete_step_right, subtree.keys]
  | node wc wl wk wr =>
    simp only [delete_step_right]
    split_ifs <;> simp [keys_delete_far_red_right, subtree.keys]

theorem keys_delete_fixup (up : List (parent_step K)) :
    ∀ x : subtree K, (delete_fixup x up).keys = keys_before up ++ x.keys ++ keys_after up := by
  induction up with
  | nil => intro x; simp [delete_fixup, keys_before, keys_after]
  | cons p up ih =>
    intro x
    unfold delete_fixup
    split
    · simp [keys_plug]
    · cases p with
      | left pc pk w =>
        simp only []
        split
        · split <;>
            simp [keys_plug, keys_delete_step_left, keys_before, keys_after, subtree.keys]
        · split <;>
            simp [ih, keys_plug, keys_delete_step_left, keys_before, keys_after]
      | right pc w pk =>
        simp only []
        split
        · split <;>
            simp [keys_plug, keys_delete_step_right, keys_before, keys_after, subtree.keys]
        · split <;>
            simp [ih, keys_plug, keys_delete_step_right, keys_before, keys_after]

theorem keys_unlink (c : rb_tree_color) (x : subtree K) (up : List (parent_step K)) :
    (unlink c x up).keys = keys_before up ++ x.keys ++ keys_after up := by
  unfold unlink
  split
  · exact keys_delete_fixup up x
  · exact keys_plug up x

end tree_keys_erase

section tree_insert_order

variable {K : Type}

theorem plug_locate_equal [LinearOrder K] (k : K) :
    ∀ (t : subtree K) (up : List (parent_step K)),
      plug .nil (locate_equal k t up) = plug t up := by
  intro t
  induction t with
  | nil => intro up; rfl
  | node c l x r ihl ihr =>
    intro up
    simp only [locate_equal]
    split
    · rw [ihl]; rfl
    · rw [ihr]; rfl

theorem plug_locate_unique [LinearOrder K] (k : K) :
    ∀ (t : subtree K) (up up1 : List (parent_step K)),
      locate_unique k t up = some up1 → plug .nil up1 = plug t up := by
  intro t
  induction t with
  | nil =>
    intro up up1 h
    simp only [locate_unique, Option.some.injEq] at h
    subst h
    rfl
  | node c l x r ihl ihr =>
    intro up up1 h
    simp only [locate_unique] at h
    split at h
    · rw [ihl _ _ h]; rfl
    · split at h
      · rw [ihr _ _ h]; rfl
      · exact absurd h (by simp)

theorem locate_equal_bounds [LinearOrder K] (k : K) :
    ∀ (t : subtree K) (up : List (parent_step K)),
      (plug t up).keys.Sorted (fun a b => a ≤ b) →
      (∀ b ∈ keys_before up, b ≤ k) → (∀ a ∈ keys_after up, k ≤ a) →
      (∀ b ∈ keys_before (locate_equal k t up), b ≤ k) ∧
        (∀ a ∈ keys_after (locate_equal k t up), k ≤ a) := by
  intro t
  induction t with
  | nil => intro up _ hb ha; exact ⟨hb, ha⟩
  | node c l x r ihl ihr =>
    intro up hs hb ha
    have hs1 := hs
    rw [keys_plug] at hs1
    simp only [subtree.keys, List.Sorted, List.pairwise_append, List.pairwise_cons,
      List.mem_append, List.mem_cons] at hs1
    simp only [locate_equal]
    split
    · rename_i hk
      apply ihl
      · exact hs
      · exact hb
      · intro a ha1
        simp only [keys_after, List.mem_cons, List.mem_append] at ha1
        rcases ha1 with (rfl | ha1) | ha1
        · exact le_of_lt hk
        · exact le_trans (le_of_lt hk) (hs1.1.2.1.2.1.1 a ha1)
        · exact ha a ha1
    · rename_i hk
      have hxk : x ≤ k := not_lt.mp hk
      apply ihr
      · exact hs
      · intro b hb1
        simp only [keys_before, List.mem_append, List.mem_singleton] at hb1
        rcases hb1 with hb1 | hb1 | rfl
        · exact hb b hb1
        · exact le_trans (hs1.1.2.1.2.2 b hb1 x (Or.inl rfl)) hxk
        · exact hxk
      · exact ha

theorem locate_unique_bounds [LinearOrder K] (k : K) :
    ∀ (t : subtree K) (up up1 : List (parent_step K)),
      locate_unique k t up = some up1 →
      (plug t up).keys.Sorted (fun a b => a ≤ b) →
      (∀ b ∈ keys_before up, b ≤ k) → (∀ a ∈ keys_after up, k ≤ a) →
      (∀ b ∈ keys_before up1, b ≤ k) ∧ (∀ a ∈ keys_after up1, k ≤ a) := by
  intro t
  induction t with
  | nil =>
    intro up up1 h _ hb ha
    simp only [locate_unique, Option.some.injEq] at h
    subst h
    exact ⟨hb, ha⟩
  | node c l x r ihl ihr =>
    intro up up1 h hs hb ha
    have hs1 := hs
    rw [keys_plug] at hs1
    simp only [subtree.keys, List.Sorted, List.pairwise_append, List.pairwise_cons,
      List.mem_append, List.mem_cons] at hs1
    simp only [locate_unique] at h
    split at h
    · rename_i hk
      apply ihl _ _ h
      · exact hs
      · exact hb
      · intro a ha1
        simp only [keys_after, List.mem_cons, List.mem_append] at ha1
        rcases ha1 with (rfl | ha1) | ha1
        · exact le_of_lt hk
        · exact le_trans (le_of_lt hk) (hs1.1.2.1.2.1.1 a ha1)
        · exact ha a ha1
    · split at h
      · rename_i hk
        have hxk : x ≤ k := le_of_lt hk
        apply ihr _ _ h
        · exact hs
        · intro b hb1
          simp only [keys_before, List.mem_append, List.mem_singleton] at hb1
          rcases hb1 with hb1 | hb1 | rfl
          · exact hb b hb1
          · exact le_trans (hs1.1.2.1.2.2 b hb1 x (Or.inl rfl)) hxk
          · exact hxk
        · exact ha
      · exact absurd h (by simp)

theorem sorted_insert_between [LinearOrder K] (k : K) (bs as : List K)
    (hs : (bs ++ as).Sorted (fun a b => a ≤ b)) (hb : ∀ b ∈ bs, b ≤ k)
    (ha : ∀ a ∈ as, k ≤ a) : (bs ++ k :: as).Sorted (fun a b => a ≤ b) := by
  simp only [List.Sorted, List.pairwise_append, List.pairwise_cons, List.mem_cons] at hs ⊢
  refine ⟨hs.1, ⟨ha, hs.2.1⟩, ?_⟩
  intro b hb1 a ha1
  rcases ha1 with rfl | ha1
  · exact hb b hb1
  · exact hs.2.2 b hb1 a ha1

theorem insert_at_ordered [LinearOrder K] (t : rb_tree K) (k : K) (up : List (parent_step K))
    (ht : t.ordered) (hplug : plug .nil up = t.root)
    (hb : ∀ b ∈ keys_before up, b ≤ k) (ha : ∀ a ∈ keys_after up, k ≤ a) :
    rb_tree.ordered
      { root := (insert_fixup (.node .red .nil k .nil) up).set_color .black,
        node_count := t.node_count + 1 } := by
  have hkeys : t.root.keys = keys_before up ++ keys_after up := by
    rw [← hplug, keys_plug]
    simp [subtree.keys]
  constructor
  · simp only [subtree.keys_set_color, keys_insert_fixup _ up _ (le_refl _)]
    have := sorted_insert_between k _ _ (hkeys ▸ ht.1) hb ha
    simpa [subtree.keys] using this
  · simp only [subtree.keys_set_color, keys_insert_fixup _ up _ (le_refl _)]
    rw [ht.2, hkeys]
    simp [subtree.keys]
    omega

theorem insert_equal_ordered [LinearOrder K] (t : rb_tree K) (k : K) (ht : t.ordered) :
    (t.insert_equal k).ordered := by
  have hb := locate_equal_bounds k t.root [] (by simpa [plug] using ht.1)
    (by simp [keys_before]) (by simp [keys_after])
  exact insert_at_ordered t k _ ht (by rw [plug_locate_equal]; rfl) hb.1 hb.2

theorem insert_unique_ordered [LinearOrder K] (t : rb_tree K) (k : K) (ht : t.ordered) :
    (t.insert_unique k).1.ordered := by
  unfold rb_tree.insert_unique
  cases h : locate_unique k t.root [] with
  | none => exact ht
  | some up =>
    have hb := locate_unique_bounds k t.root [] up h (by simpa [plug] using ht.1)
      (by simp [keys_before]) (by simp [keys_after])
    exact insert_at_ordered t k up ht (by rw [plug_locate_unique k _ _ _ h]; rfl) hb.1 hb.2

end tree_insert_order

section tree_traversal

variable {K : Type}

theorem keys_before_append (dn up : List (parent_step K)) :
    keys_before (dn ++ up) = keys_before up ++ keys_before dn := by
  induction dn with
  | nil => simp [keys_before]
  | cons p dn ih => cases p <;> simp [keys_before, ih]

theorem keys_after_append (dn up : List (parent_step K)) :
    keys_after (dn ++ up) = keys_after dn ++ keys_after up := by
  induction dn with
  | nil => simp [keys_after]
  | cons p dn ih => cases p <;> simp [keys_after, ih]

theorem leftmost_spec :
    ∀ (t : subtree K) (up : List (parent_step K)), t ≠ .nil →
      ∃ yc yk yr dn, leftmost t up = .node yc .nil yk yr dn ∧
        keys_before dn = keys_before up ∧
        yk :: yr.keys ++ keys_after dn = t.keys ++ keys_after up ∧
        plug (.node yc .nil yk yr) dn = plug t up := by
  intro t
  induction t with
  | nil => intro up h; exact absurd rfl h
  | node c l k r ihl _ =>
    intro up _
    cases l with
    | nil => exact ⟨c, k, r, up, rfl, rfl, by simp [subtree.keys], rfl⟩
    | node lc ll lk lr =>
      obtain ⟨yc, yk, yr, dn, h1, h2, h3, h4⟩ :=
        ihl (.left c k r :: up) (by simp)
      refine ⟨yc, yk, yr, dn, ?_, ?_, ?_, ?_⟩
      · simp only [leftmost]
        exact h1
      · simpa [keys_before] using h2
      · rw [h3]
        simp [subtree.keys, keys_after]
      · rw [h4]
        rfl

theorem leftmost_rest (t : subtree K) (up : List (parent_step K)) (h : t ≠ .nil) :
    (leftmost t up).rest = t.keys ++ keys_after up := by
  obtain ⟨yc, yk, yr, dn, h1, _, h3, _⟩ := leftmost_spec t up h
  rw [h1]
  simpa [position.rest] using h3

theorem leftmost_within (t : subtree K) (up : List (parent_step K)) :
    (leftmost t up).within (plug t up) := by
  cases t with
  | nil => simp [leftmost, position.within]
  | node c l k r =>
    obtain ⟨yc, yk, yr, dn, h1, _, _, h4⟩ := leftmost_spec (.node c l k r) up (by simp)
    rw [h1]
    exact h4

theorem climb_rest (up : List (parent_step K)) :
    ∀ x : subtree K, (climb x up).rest = keys_after up := by
  induction up with
  | nil => intro x; rfl
  | cons p up ih =>
    intro x
    cases p with
    | left c k r => rfl
    | right c l k => simp [climb, ih, keys_after]

theorem climb_within (up : List (parent_step K)) :
    ∀ x : subtree K, (climb x up).within (plug x up) := by
  induction up with
  | nil => intro x; simp [climb, position.within]
  | cons p up ih =>
    intro x
    cases p with
    | left c k r => simp [climb, position.within, plug, parent_step.attach]
    | right c l k => simpa [climb, plug, parent_step.attach] using ih (.node c l k x)

theorem successor_rest (c : rb_tree_color) (l : subtree K) (k : K) (r : subtree K)
    (up : List (parent_step K)) :
    (successor (.node c l k r up)).rest = r.keys ++ keys_after up := by
  cases r with
  | nil => simp [successor, climb_rest, subtree.keys]
  | node rc rl rk rr =>
    simp only [successor]
    rw [leftmost_rest _ _ (by simp)]
    simp [keys_after]

theorem successor_within (root : subtree K) (p : position K) (h : p.within root) :
    (successor p).within root := by
  cases p with
  | header => exact h
  | node c l k r up =>
    simp only [position.within] at h
    cases r with
    | nil =>
      simp only [successor]
      rw [← h]
      exact climb_within up _
    | node rc rl rk rr =>
      simp only [successor]
      rw [← h]
      exact leftmost_within _ _

theorem walk_rest : ∀ (fuel : Nat) (p : position K), p.rest.length ≤ fuel →
    walk fuel p = some p.rest := by
  intro fuel
  induction fuel with
  | zero =>
    intro p h
    cases p with
    | header => rfl
    | node c l k r up => simp [position.rest] at h
  | succ n ih =>
    intro p h
    cases p with
    | header => rfl
    | node c l k r up =>
      have hlen : (successor (.node c l k r up)).rest.length ≤ n := by
        rw [successor_rest]
        simp only [position.rest, List.length_cons, List.length_append] at h
        simp only [List.length_append]
        omega
      simp only [walk]
      rw [ih _ hlen, successor_rest]
      rfl

theorem begin_rest (t : rb_tree K) : t.begin_pos.rest = t.root.keys := by
  unfold rb_tree.begin_pos
  cases h : t.root with
  | nil => rfl
  | node c l k r =>
    rw [leftmost_rest _ _ (by simp)]
    simp [keys_after]

theorem traverse_keys (t : rb_tree K) (fuel : Nat) (h : t.root.keys.length ≤ fuel) :
    t.traverse fuel = some t.root.keys := by
  unfold rb_tree.traverse
  rw [walk_rest fuel _ (by rw [begin_rest]; exact h), begin_rest]

theorem nth_pos_within (t : rb_tree K) : ∀ i : Nat, (t.nth_pos i).within t.root := by
  intro i
  induction i with
  | zero => simpa [rb_tree.nth_pos, rb_tree.begin_pos, plug] using leftmost_within t.root []
  | succ i ih => exact successor_within _ _ ih

theorem erase_at_keys (c : rb_tree_color) (l : subtree K) (k : K) (r : subtree K)
    (up : List (parent_step K)) :
    ∃ root1, erase_at (.node c l k r up) = some root1 ∧
      root1.keys = keys_before up ++ (l.keys ++ r.keys) ++ keys_after up := by
  cases l with
  | nil => exact ⟨_, rfl, by simp [keys_unlink, subtree.keys]⟩
  | node lc ll lk lr =>
    cases r with
    | nil => exact ⟨_, rfl, by simp [keys_unlink, subtree.keys]⟩
    | node rc rl rk rr =>
      obtain ⟨yc, yk, yr, dn, h1, h2, h3, _⟩ :=
        leftmost_spec (.node rc rl rk rr) [] (by simp)
      refine ⟨unlink yc yr (dn ++ .right c (.node lc ll lk lr) yk :: up), ?_, ?_⟩
      · simp only [erase_at, h1]
      · rw [keys_unlink, keys_before_append, keys_after_append, h2]
        simp only [keys_after, List.append_nil] at h3
        simp only [keys_before, keys_after, List.append_nil, List.append_assoc, ← h3]
        simp

theorem erase_ordered [LinearOrder K] (t : rb_tree K) (p : position K) (ht : t.ordered)
    (hp : p.within t.root) (hne : p ≠ .header) :
    ∃ t1, t.erase p = some t1 ∧ t1.ordered := by
  cases p with
  | header => exact absurd rfl hne
  | node c l k r up =>
    obtain ⟨root1, h1, h2⟩ := erase_at_keys c l k r up
    refine ⟨{ root := root1, node_count := t.node_count - 1 }, by simp [rb_tree.erase, h1], ?_⟩
    simp only [position.within] at hp
    have hkeys : t.root.keys = keys_before up ++ (l.keys ++ k :: r.keys) ++ keys_after up := by
      rw [← hp, keys_plug]
      rfl
    constructor
    · simp only [h2]
      have hs := ht.1
      rw [hkeys] at hs
      refine List.Pairwise.sublist ?_ hs
      refine List.Sublist.append (List.Sublist.append (List.Sublist.refl _) ?_)
        (List.Sublist.refl _)
      exact List.Sublist.append (List.Sublist.refl _) (List.sublist_cons_self _ _)
    · simp only [h2, ht.2, hkeys, List.length_append, List.length_cons]
      omega

end tree_traversal

section tree_ops_order

variable {K : Type}

theorem tree_apply_ordered [LinearOrder K] (t t1 : rb_tree K) (op : tree_op K) (ht : t.ordered)
    (h : tree_apply t op = some t1) : t1.ordered := by
  cases op with
  | insert_unique k =>
    simp only [tree_apply, Option.some.injEq] at h
    subst h
    exact insert_unique_ordered t k ht
  | insert_equal k =>
    simp only [tree_apply, Option.some.injEq] at h
    subst h
    exact insert_equal_ordered t k ht
  | erase i =>
    simp only [tree_apply] at h
    by_cases hh : t.nth_pos i = .header
    · rw [hh] at h
      simp [rb_tree.erase, erase_at] at h
    · obtain ⟨t2, h2, h3⟩ := erase_ordered t _ ht (nth_pos_within t i) hh
      rw [h2, Option.some.injEq] at h
      subst h
      exact h3

theorem tree_run_ordered [LinearOrder K] (ops : List (tree_op K)) :
    ∀ t t1 : rb_tree K, t.ordered → tree_run ops t = some t1 → t1.ordered := by
  induction ops with
  | nil =>
    intro t t1 ht h
    simp only [tree_run, Option.some.injEq] at h
    subst h
    exact ht
  | cons op ops ih =>
    intro t t1 ht h
    simp only [tree_run] at h
    cases h2 : tree_apply t op with
    | none => simp [h2] at h
    | some t2 =>
      simp only [h2, Option.some_bind] at h
      exact ih t2 t1 (tree_apply_ordered t t2 op ht h2) h

theorem empty_ordered [LinearOrder K] : (rb_tree.empty : rb_tree K).ordered := by
  simp [rb_tree.ordered, rb_tree.empty, subtree.keys]

end tree_ops_order

/-- C18: for all sequences of inserts and erases from the empty tree (an
erase taking the iterator reached from `begin()` by some number of successor
steps), an in-order traversal from `begin()` to `end()` by repeated successor
steps ends, with fuel `size()`, and yields keys in non-decreasing order under
the ordering policy, and the number of elements yielded equals `size()`, the
header's node count. -/
theorem traversal_sorted_and_counted {K : Type} [LinearOrder K] (ops : List (tree_op K))
    (t : rb_tree K) (hrun : tree_run ops rb_tree.empty = some t) :
    ∃ ks, (∀ fuel, t.size ≤ fuel → t.traverse fuel = some ks) ∧
      ks.Sorted (fun a b => a ≤ b) ∧ ks.length = t.size := by
  have ht := tree_run_ordered ops _ t empty_ordered hrun
  refine ⟨t.root.keys, ?_, ht.1, ht.2.symm⟩
  intro fuel hfuel
  exact traverse_keys t fuel (by rw [← ht.2]; exact hfuel)

/-- The instance of C18 on the keys 5, 1, 2, 3, 4 inserted in this order and
the erase of the last element, the key 5. -/
theorem traversal_sorted_and_counted_witness :
    ∃ t : rb_tree Nat,
      tree_run [.insert_equal 5, .insert_unique 1, .insert_equal 2, .insert_unique 3,
        .insert_equal 4, .erase 4] rb_tree.empty = some t ∧
      ∃ ks, (∀ fuel, t.size ≤ fuel → t.traverse fuel = some ks) ∧
        ks.Sorted (fun a b => a ≤ b) ∧ ks.length = t.size := by
  have hs : (tree_run [.insert_equal 5, .insert_unique 1, .insert_equal 2, .insert_unique 3,
      .insert_equal 4, .erase 4] (rb_tree.empty : rb_tree Nat)).isSome = true := by decide
  obtain ⟨t, h⟩ := Option.isSome_iff_exists.mp hs
  exact ⟨t, h, traversal_sorted_and_counted _ t h⟩

end ft
